import Mathlib

/-!
Verification of the data-transformation pipeline of `src/Dataviz.ts`.

The TypeScript functions are shallowly embedded: a JavaScript runtime value is
`JSVal` (numbers are `NumV`: a finite rational, `NaN`, or a signed infinity;
finite doubles are idealised as rationals), a record is an association list from
column name to value, and a missing property (`undefined`) is `Option.none`.
JavaScript's implicit coercions (`ToNumber`, `ToString`, loose equality, the
relational operators, `+`) are modelled on the decimal fragment actually
exercised by the module (no exponent/hex string literals), `localeCompare` is
modelled as code-point lexicographic comparison, and `Array.prototype.sort` is
modelled as a stable insertion sort driven by the comparator's sign.
-/

set_option maxHeartbeats 1000000

namespace Dataviz

/-- A JavaScript number: finite (idealised as `ℚ`), `NaN`, or a signed infinity. -/
inductive NumV where
  | fin (q : ℚ)
  | nan
  | posInf
  | negInf
deriving DecidableEq, Repr

/-- A primitive JavaScript value as used by the pipeline. -/
inductive JSVal where
  | num (n : NumV)
  | str (s : String)
  | boolean (b : Bool)
  | null
deriving DecidableEq, Repr

/-- A data record: column name to value; a missing column models `undefined`. -/
abbrev JSRec := List (String × JSVal)

/-- Property access `r[f]`: first binding wins, `none` models `undefined`. -/
def lookupF (r : JSRec) (f : String) : Option JSVal :=
  (r.find? (fun p => p.1 == f)).map Prod.snd

/-- Digits of a decimal string as a natural number (`0` for the empty list). -/
def natOfDigits (cs : List Char) : Nat :=
  cs.foldl (fun a c => a * 10 + (c.toNat - 48)) 0

/-- `ToNumber` on an unsigned decimal body: digits, optional fraction. -/
def parseDecimal (cs : List Char) : NumV :=
  let p := cs.span Char.isDigit
  match p.2 with
  | [] => if p.1 = [] then .nan else .fin (natOfDigits p.1)
  | '.' :: fp =>
    if fp.all Char.isDigit && !(p.1 = [] && fp = []) then
      .fin ((natOfDigits p.1 : ℚ) + (natOfDigits fp : ℚ) / (10 ^ fp.length : ℚ))
    else .nan
  | _ => .nan

/-- `ToNumber` on a string: trim, empty is `0`, optional sign, `Infinity` or a
decimal literal; anything else (the exponent/hex forms are outside the modelled
fragment) is `NaN`. -/
def parseJSNumber (s : String) : NumV :=
  match s.trim.data with
  | [] => .fin 0
  | cs =>
    let sp : Bool × List Char :=
      match cs with
      | '-' :: rest => (true, rest)
      | '+' :: rest => (false, rest)
      | _ => (false, cs)
    let core : NumV :=
      if sp.2 = ['I', 'n', 'f', 'i', 'n', 'i', 't', 'y'] then .posInf
      else parseDecimal sp.2
    if sp.1 then
      match core with
      | .fin q => .fin (-q)
      | .posInf => .negInf
      | .negInf => .posInf
      | .nan => .nan
    else core

/-- `ToNumber` on a primitive value. -/
def toNumberV : JSVal → NumV
  | .num n => n
  | .str s => parseJSNumber s
  | .boolean b => .fin (if b then 1 else 0)
  | .null => .fin 0

/-- `ToNumber` where the operand may be `undefined` (which is `NaN`). -/
def toNumberO : Option JSVal → NumV
  | none => .nan
  | some v => toNumberV v

/-- IEEE-style negation. -/
def nneg : NumV → NumV
  | .fin q => .fin (-q)
  | .nan => .nan
  | .posInf => .negInf
  | .negInf => .posInf

/-- IEEE-style addition. -/
def nadd : NumV → NumV → NumV
  | .nan, _ => .nan
  | _, .nan => .nan
  | .posInf, .negInf => .nan
  | .negInf, .posInf => .nan
  | .posInf, _ => .posInf
  | _, .posInf => .posInf
  | .negInf, _ => .negInf
  | _, .negInf => .negInf
  | .fin a, .fin b => .fin (a + b)

/-- IEEE-style subtraction. -/
def nsub (a b : NumV) : NumV := nadd a (nneg b)

/-- IEEE-style multiplication (`0 * ∞ = NaN`). -/
def nmul : NumV → NumV → NumV
  | .nan, _ => .nan
  | _, .nan => .nan
  | .fin a, .fin b => .fin (a * b)
  | .posInf, .posInf => .posInf
  | .posInf, .negInf => .negInf
  | .negInf, .posInf => .negInf
  | .negInf, .negInf => .posInf
  | .posInf, .fin b => if 0 < b then .posInf else if b < 0 then .negInf else .nan
  | .fin a, .posInf => if 0 < a then .posInf else if a < 0 then .negInf else .nan
  | .negInf, .fin b => if 0 < b then .negInf else if b < 0 then .posInf else .nan
  | .fin a, .negInf => if 0 < a then .negInf else if a < 0 then .posInf else .nan

/-- IEEE-style division (single zero: `x/0` takes the sign of `x`). -/
def ndiv : NumV → NumV → NumV
  | .nan, _ => .nan
  | _, .nan => .nan
  | .posInf, .posInf => .nan
  | .posInf, .negInf => .nan
  | .negInf, .posInf => .nan
  | .negInf, .negInf => .nan
  | .posInf, .fin b => if b < 0 then .negInf else .posInf
  | .negInf, .fin b => if b < 0 then .posInf else .negInf
  | .fin _, .posInf => .fin 0
  | .fin _, .negInf => .fin 0
  | .fin a, .fin b =>
    if b = 0 then (if a = 0 then .nan else if 0 < a then .posInf else .negInf)
    else .fin (a / b)

/-- JavaScript `<` on numbers: any comparison with `NaN` is false. -/
def nltB : NumV → NumV → Bool
  | .nan, _ => false
  | _, .nan => false
  | .negInf, .negInf => false
  | .negInf, _ => true
  | _, .negInf => false
  | .posInf, _ => false
  | _, .posInf => true
  | .fin a, .fin b => a < b

/-- JavaScript `<=` on numbers: any comparison with `NaN` is false. -/
def nleB : NumV → NumV → Bool
  | .nan, _ => false
  | _, .nan => false
  | .negInf, _ => true
  | _, .negInf => false
  | _, .posInf => true
  | .posInf, _ => false
  | .fin a, .fin b => a ≤ b

/-- Strict equality `===` on numbers (`NaN === NaN` is false). -/
def nStrictEqB : NumV → NumV → Bool
  | .fin a, .fin b => a == b
  | .posInf, .posInf => true
  | .negInf, .negInf => true
  | _, _ => false

/-- One step of `Math.min` (`NaN` is absorbing). -/
def nMin2 (a b : NumV) : NumV :=
  match a, b with
  | .nan, _ => .nan
  | _, .nan => .nan
  | _, _ => if nleB a b then a else b

/-- One step of `Math.max` (`NaN` is absorbing). -/
def nMax2 (a b : NumV) : NumV :=
  match a, b with
  | .nan, _ => .nan
  | _, .nan => .nan
  | _, _ => if nleB a b then b else a

/-- `Math.min(...values)` over possibly-missing operands: `+∞` when empty. -/
def mathMinList (vs : List (Option JSVal)) : NumV :=
  vs.foldl (fun acc v => nMin2 acc (toNumberO v)) .posInf

/-- `Math.max(...values)` over possibly-missing operands: `-∞` when empty. -/
def mathMaxList (vs : List (Option JSVal)) : NumV :=
  vs.foldl (fun acc v => nMax2 acc (toNumberO v)) .negInf

/-- The sign a JavaScript sort comparator `(a, b) => a - b` yields
(a `NaN` comparator result counts as `0`). -/
def jsCmpNum (a b : NumV) : Int :=
  match nsub a b with
  | .nan => 0
  | .posInf => 1
  | .negInf => -1
  | .fin q => if q < 0 then -1 else if 0 < q then 1 else 0

/-- Digits after the decimal point of `r / d` by long division (`k` digit budget). -/
def fracDigits : Nat → Nat → Nat → List Char
  | 0, _, _ => []
  | _ + 1, 0, _ => []
  | k + 1, r, d => Char.ofNat (48 + r * 10 / d) :: fracDigits k (r * 10 % d) d

/-- `ToString` on a number (decimal expansion, up to 30 fractional digits). -/
def numToString (n : NumV) : String :=
  match n with
  | .nan => ("NaN")
  | .posInf => ("Infinity")
  | .negInf => ("-Infinity")
  | .fin q =>
    if q.den = 1 then toString q.num
    else
      (if q < 0 then ("-") else ("")) ++ toString (q.num.natAbs / q.den) ++ (".")
        ++ String.mk (fracDigits 30 (q.num.natAbs % q.den) q.den)

/-- `String(v)` on a primitive value. -/
def jsToString : JSVal → String
  | .num n => numToString n
  | .str s => s
  | .boolean b => if b then ("true") else ("false")
  | .null => ("null")

/-- `String(v)` where the operand may be `undefined`. -/
def jsToStringO : Option JSVal → String
  | none => ("undefined")
  | some v => jsToString v

/-- Code-point lexicographic comparison (the model of `localeCompare`). -/
def strCmpL : List Char → List Char → Int
  | [], [] => 0
  | [], _ :: _ => -1
  | _ :: _, [] => 1
  | a :: as, b :: bs =>
    if a.toNat < b.toNat then -1 else if b.toNat < a.toNat then 1 else strCmpL as bs

/-- `a.localeCompare(b)`, modelled as code-point lexicographic comparison. -/
def localeCompare (s t : String) : Int := strCmpL s.data t.data

/-- Insert before the first element the comparator does not order after
(a stable insertion wrt the comparator's sign). -/
def jsInsert (cmp : α → α → Int) (a : α) : List α → List α
  | [] => [a]
  | b :: l => if cmp a b ≤ 0 then a :: b :: l else b :: jsInsert cmp a l

/-- `Array.prototype.sort(cmp)`, modelled as stable insertion sort. -/
def jsSortBy (cmp : α → α → Int) : List α → List α
  | [] => []
  | a :: l => jsInsert cmp a (jsSortBy cmp l)

/-- JavaScript loose equality `==` between primitive values
(`null == v` only for `v` null; numbers and strings compare after `ToNumber`;
booleans coerce to numbers first). -/
def looseEq (a b : JSVal) : Bool :=
  match a, b with
  | .null, .null => true
  | .null, _ => false
  | _, .null => false
  | .num x, .num y => nStrictEqB x y
  | .str s, .str t => s == t
  | .num x, .str t => nStrictEqB x (parseJSNumber t)
  | .str s, .num y => nStrictEqB (parseJSNumber s) y
  | .boolean x, .num y => nStrictEqB (.fin (if x then 1 else 0)) y
  | .num x, .boolean y => nStrictEqB x (.fin (if y then 1 else 0))
  | .boolean x, .str t => nStrictEqB (.fin (if x then 1 else 0)) (parseJSNumber t)
  | .str s, .boolean y => nStrictEqB (parseJSNumber s) (.fin (if y then 1 else 0))
  | .boolean x, .boolean y => x == y

/-- A user filter: column, operator string, comparison value (src `Filter`). -/
structure Filter where
  column : String
  operator : String
  value : JSVal
deriving DecidableEq, Repr

/-- The per-record, per-filter predicate inside `applyFiltering`
(src lines 858-874): null/undefined row value fails; `==` is loose equality;
the ordering operators compare after numeric coercion of both sides; any other
operator string passes. -/
def filterPred (d : JSRec) (fil : Filter) : Bool :=
  match lookupF d fil.column with
  | none => false
  | some .null => false
  | some rowVal =>
    if fil.operator = ("==") then looseEq rowVal fil.value
    else if fil.operator = ("<") then nltB (toNumberV rowVal) (toNumberV fil.value)
    else if fil.operator = ("<=") then nleB (toNumberV rowVal) (toNumberV fil.value)
    else if fil.operator = (">") then nltB (toNumberV fil.value) (toNumberV rowVal)
    else if fil.operator = (">=") then nleB (toNumberV fil.value) (toNumberV rowVal)
    else true

/-- `applyFiltering` (src lines 858-874). -/
def applyFiltering (data : List JSRec) (filters : List Filter) : List JSRec :=
  data.filter (fun d => filters.all (fun fil => filterPred d fil))

/-- `typeof datum[feature] === 'number'`. -/
def isNumType : Option JSVal → Bool
  | some (.num _) => true
  | _ => false

/-- The indexed filter body of `identifyNumericColumns` (src lines 81-97). -/
def identifyNumericColumnsAux (data : List JSRec) (types : List String) :
    Nat → List String → List String
  | _, [] => []
  | i, f :: fs =>
    let keep : Bool :=
      match types.get? i with
      | some t =>
        if t = ("number") then true
        else if t = ("enum") then data.all (fun r => isNumType (lookupF r f))
        else false
      | none => false
    (if keep then [f] else []) ++ identifyNumericColumnsAux data types (i + 1) fs

/-- `identifyNumericColumns` (src lines 81-97): a feature is numeric when its
declared type is `number`, or is `enum` and every record's value is a number. -/
def identifyNumericColumns (data : List JSRec) (features types : List String) : List String :=
  identifyNumericColumnsAux data types 0 features

/-- Property assignment `r[f] = v` (replace the binding, or add it). -/
def recSet (r : JSRec) (f : String) (v : JSVal) : JSRec :=
  match r with
  | [] => [(f, v)]
  | (g, w) :: rest => if g = f then (g, v) :: rest else (g, w) :: recSet rest f v

/-- The values of one column across a dataset (`data.map(d => d[feature])`). -/
def columnVals (data : List JSRec) (f : String) : List (Option JSVal) :=
  data.map (fun r => lookupF r f)

/-- One column pass of `applyNormalization` (src lines 129-148). -/
def normalizeStep (data : List JSRec) (feature : String) : List JSRec :=
  if nStrictEqB (mathMinList (columnVals data feature)) (mathMaxList (columnVals data feature))
  then data
  else data.map (fun datum =>
    recSet datum feature
      (.num (ndiv (nsub (toNumberO (lookupF datum feature)) (mathMinList (columnVals data feature)))
        (nsub (mathMaxList (columnVals data feature)) (mathMinList (columnVals data feature))))))

/-- `applyNormalization` (src lines 129-148): min-max scale each listed column;
a column whose min strictly equals its max is left alone. -/
def applyNormalization (data : List JSRec) (numericFeatures : List String) : List JSRec :=
  numericFeatures.foldl normalizeStep data

/-- JS sort of raw values with comparator `(a, b) => a - b`: undefined entries
move to the end, the rest sort by their numeric coercion. -/
def jsSortValues (vs : List (Option JSVal)) : List (Option JSVal) :=
  jsSortBy (fun a b => jsCmpNum (toNumberO a) (toNumberO b)) (vs.filter Option.isSome)
    ++ vs.filter (fun v => !v.isSome)

/-- One column pass of `removeOutliers` (src lines 151-181): index-based
quartiles of the sorted column, Tukey bounds, drop rows outside them. -/
def outlierStep (t : ℚ) (data : List JSRec) (feature : String) : List JSRec :=
  let values := data.map (fun d => lookupF d feature)
  let sortedValues := jsSortValues values
  let q1 := (sortedValues.get? (sortedValues.length / 4)).join
  let q3 := (sortedValues.get? (sortedValues.length * 3 / 4)).join
  let iqr := nsub (toNumberO q3) (toNumberO q1)
  let lowerBound := nsub (toNumberO q1) (nmul (.fin t) iqr)
  let upperBound := nadd (toNumberO q3) (nmul (.fin t) iqr)
  data.filter (fun d =>
    let value := toNumberO (lookupF d feature)
    !(nltB value lowerBound || nltB upperBound value))

/-- `removeOutliers` (src lines 151-181): successive column passes, each
operating on the survivors of the previous one. -/
def removeOutliers (data : List JSRec) (numericFeatures : List String) (t : ℚ) : List JSRec :=
  numericFeatures.foldl (outlierStep t) data

/-- Strict equality `===` where either operand may be `undefined`. -/
def jsStrictEqO : Option JSVal → Option JSVal → Bool
  | none, none => true
  | some (.num a), some (.num b) => nStrictEqB a b
  | some (.str s), some (.str t) => s == t
  | some (.boolean a), some (.boolean b) => a == b
  | some .null, some .null => true
  | _, _ => false

/-- `Array.from(new Set(xs))`: first occurrences in insertion order
(`SameValueZero` on the modelled values is structural equality). -/
def jsSetList : List (Option JSVal) → List (Option JSVal)
  | [] => []
  | x :: xs => x :: jsSetList (xs.filter (fun y => y ≠ x))
termination_by l => l.length
decreasing_by
  simp only [List.length_cons]
  exact Nat.lt_succ_of_le (List.length_filter_le _ _)

/-- `sortFunction` (src lines 68-74): numeric comparison when both operands
coerce to non-`NaN` numbers, else lexicographic on their string forms. -/
def sortFunction (a b : Option JSVal) : Int :=
  if toNumberO a ≠ .nan ∧ toNumberO b ≠ .nan then jsCmpNum (toNumberO a) (toNumberO b)
  else localeCompare (jsToStringO a) (jsToStringO b)

/-- `Array.prototype.indexOf` (strict equality; `-1` when absent). -/
def jsIndexOf (xs : List (Option JSVal)) (v : Option JSVal) : Int :=
  match xs with
  | [] => -1
  | x :: rest =>
    if jsStrictEqO x v then 0
    else
      let r := jsIndexOf rest v
      if r < 0 then -1 else r + 1

/-- JavaScript `+` between a cell value and a record value (a string operand
concatenates, otherwise both coerce to numbers and add). -/
def jsAdd (a : JSVal) (b : Option JSVal) : JSVal :=
  match a, b with
  | .str s, _ => .str (s ++ jsToStringO b)
  | _, some (.str t) => .str (jsToString a ++ t)
  | _, _ => .num (nadd (toNumberV a) (toNumberO b))

/-- `matrix[i][j] += v` on a list-of-lists matrix. -/
def matrixUpdate (m : List (List JSVal)) (i j : Nat) (v : Option JSVal) : List (List JSVal) :=
  m.set i (((m.get? i).getD []).set j
    (jsAdd ((((m.get? i).getD []).get? j).getD (.num (.fin 0))) v))

/-- The result shape of `buildHeatmapData`. -/
structure HeatmapData where
  values : List (List JSVal)
  rowLabels : List (Option JSVal)
  colLabels : List (Option JSVal)
deriving DecidableEq, Repr

/-- The sorted deduplicated labels `buildHeatmapData` derives for one feature. -/
def heatLabels (data : List JSRec) (feature : String) : List (Option JSVal) :=
  jsSortBy sortFunction (jsSetList (data.map (fun d => lookupF d feature)))

/-- One record's accumulation step inside `buildHeatmapData`. -/
def heatStep (rowLabels colLabels : List (Option JSVal))
    (rowFeature colFeature valueFeature : String)
    (m : List (List JSVal)) (datum : JSRec) : List (List JSVal) :=
  if 0 ≤ jsIndexOf rowLabels (lookupF datum rowFeature)
      ∧ 0 ≤ jsIndexOf colLabels (lookupF datum colFeature) then
    matrixUpdate m (jsIndexOf rowLabels (lookupF datum rowFeature)).toNat
      (jsIndexOf colLabels (lookupF datum colFeature)).toNat (lookupF datum valueFeature)
  else m

/-- `buildHeatmapData` (src lines 184-211): sorted deduplicated labels from the
data, zero matrix, then accumulate the value feature at each record's cell. -/
def buildHeatmapData (data : List JSRec) (rowFeature colFeature valueFeature : String) :
    HeatmapData :=
  let rowLabels := heatLabels data rowFeature
  let colLabels := heatLabels data colFeature
  let init := rowLabels.map (fun _ => colLabels.map (fun _ => (JSVal.num (.fin 0))))
  ⟨data.foldl (heatStep rowLabels colLabels rowFeature colFeature valueFeature) init,
    rowLabels, colLabels⟩

/-- The `continue` guard of `aggregateData` (src line 238): skip when the
grouping value or the numeric value is null/undefined, when the numeric value
is not of number type, or when it is `NaN`. -/
def aggRowSkipped (row : JSRec) (groupFeature numericFeature : String) : Bool :=
  match lookupF row groupFeature, lookupF row numericFeature with
  | none, _ => true
  | some .null, _ => true
  | _, none => true
  | _, some .null => true
  | _, some (.num .nan) => true
  | _, some (.num _) => false
  | _, some _ => true

/-- The Map key for a grouping value: itself when a number or string, else its
string form (src line 241). -/
def groupKeyOf (g : JSVal) : JSVal :=
  match g with
  | .num n => .num n
  | .str s => .str s
  | v => .str (jsToString v)

/-- The number payload of a value known to be of number type. -/
def numPartOf : JSVal → NumV
  | .num n => n
  | _ => .nan

/-- Append a value to its group in the insertion-ordered group list
(the model of `groupsMap.get(key).push(val)` on a JS `Map`). -/
def addToGroups (gs : List (JSVal × List NumV)) (k : JSVal) (v : NumV) :
    List (JSVal × List NumV) :=
  match gs with
  | [] => [(k, [v])]
  | (k', vs) :: rest =>
    if k' = k then (k', vs ++ [v]) :: rest else (k', vs) :: addToGroups rest k v

/-- The grouping key a row contributes under `aggregateData`. -/
def keyOfRow (r : JSRec) (g : String) : JSVal := groupKeyOf ((lookupF r g).getD .null)

/-- The numeric value a row contributes under `aggregateData`. -/
def valOfRow (r : JSRec) (v : String) : NumV := numPartOf ((lookupF r v).getD .null)

/-- One iteration of the group-collection loop of `aggregateData`. -/
def groupStep (groupFeature numericFeature : String) (gs : List (JSVal × List NumV))
    (row : JSRec) : List (JSVal × List NumV) :=
  if aggRowSkipped row groupFeature numericFeature then gs
  else addToGroups gs (keyOfRow row groupFeature) (valOfRow row numericFeature)

/-- The group-collection loop of `aggregateData` (src lines 233-247). -/
def buildGroups (data : List JSRec) (groupFeature numericFeature : String) :
    List (JSVal × List NumV) :=
  data.foldl (groupStep groupFeature numericFeature) []

/-- The per-group statistic switch of `aggregateData` (src lines 253-277);
an unrecognized method string falls back to the average. -/
def aggValue (method : String) (values : List NumV) : NumV :=
  if method = ("sum") then values.foldl nadd (.fin 0)
  else if method = ("average") then ndiv (values.foldl nadd (.fin 0)) (.fin (values.length : ℚ))
  else if method = ("median") then
    let sortedVals := jsSortBy jsCmpNum values
    let mid := sortedVals.length / 2
    if sortedVals.length % 2 = 0 then
      ndiv (nadd ((if mid = 0 then Option.none else sortedVals.get? (mid - 1)).getD .nan)
        ((sortedVals.get? mid).getD .nan)) (.fin 2)
    else (sortedVals.get? mid).getD .nan
  else if method = ("min") then values.foldl nMin2 .posInf
  else if method = ("max") then values.foldl nMax2 .negInf
  else ndiv (values.foldl nadd (.fin 0)) (.fin (values.length : ℚ))

/-- One aggregated result entry. -/
structure AggEntry where
  group : JSVal
  value : NumV
deriving DecidableEq, Repr

/-- The final comparator of `aggregateData` (src lines 284-290): numeric when
both group keys are numbers, else lexicographic on their string forms. -/
def aggCmp (a b : AggEntry) : Int :=
  match a.group, b.group with
  | .num x, .num y => jsCmpNum x y
  | _, _ => localeCompare (jsToString a.group) (jsToString b.group)

/-- `aggregateData` (src lines 218-293). -/
def aggregateData (data : List JSRec) (groupFeature numericFeature : String)
    (method : String) : List AggEntry :=
  match data with
  | [] => []
  | _ =>
    let groupsMap := buildGroups data groupFeature numericFeature
    let aggregatedData := (groupsMap.filter (fun g => g.2.length ≠ 0)).map
      (fun g => AggEntry.mk g.1 (aggValue method g.2))
    jsSortBy aggCmp aggregatedData

/-- An `{x, y}` chart point (raw record values; missing is `undefined`). -/
structure XYPoint where
  x : Option JSVal
  y : Option JSVal
deriving DecidableEq, Repr

/-- The data preparation of `Dataviz._Linechart` (src lines 1165-1199):
project to `{x, y}` pairs, then sort by `a.x - b.x`. -/
def linechartValues (data : List JSRec) (xFeature yFeature : String) : List XYPoint :=
  jsSortBy (fun a b => jsCmpNum (toNumberO a.x) (toNumberO b.x))
    (data.map (fun datum => XYPoint.mk (lookupF datum xFeature) (lookupF datum yFeature)))

/-- The data preparation of `Dataviz._Scatterplot` (src lines 1236-1268):
project to `{x, y}` pairs in dataset order (no sort). -/
def scatterplotValues (data : List JSRec) (xFeature yFeature : String) : List XYPoint :=
  data.map (fun datum => XYPoint.mk (lookupF datum xFeature) (lookupF datum yFeature))

/-- The values of group `k` among the unskipped rows, in dataset order. -/
def groupValsOf (data : List JSRec) (g v : String) (k : JSVal) : List NumV :=
  (data.filter (fun r => !aggRowSkipped r g v && (keyOfRow r g == k))).map
    (fun r => valOfRow r v)

/-- Assoc lookup of a group's value list (empty when the key is absent). -/
def findVals (gs : List (JSVal × List NumV)) (k : JSVal) : List NumV :=
  ((gs.find? (fun p => p.1 == k)).map Prod.snd).getD []

/-- The finite part of a numeric value (`0` otherwise; used to state sums). -/
def finPartOf : Option JSVal → ℚ
  | some (.num (.fin q)) => q
  | _ => 0

/-- The sum the specification assigns to one heatmap cell. -/
def cellSum (data : List JSRec) (rF cF vF : String) (rl cl : Option JSVal) : ℚ :=
  ((data.filter (fun r =>
    jsStrictEqO (lookupF r rF) rl && jsStrictEqO (lookupF r cF) cl)).map
    (fun r => finPartOf (lookupF r vF))).sum

/-- One cell of a list-of-lists matrix (`0` out of range; used to state sums). -/
def cellGet (m : List (List JSVal)) (i j : Nat) : JSVal :=
  ((((m.get? i).getD []).get? j).getD (.num (.fin 0)))

theorem jsInsert_perm (cmp : α → α → Int) (a : α) (l : List α) :
    List.Perm (jsInsert cmp a l) (a :: l) := by
  induction l with
  | nil => exact List.Perm.refl _
  | cons b t ih =>
    simp only [jsInsert]
    split
    · exact List.Perm.refl _
    · exact (ih.cons b).trans (List.Perm.swap a b t)

theorem jsSortBy_perm (cmp : α → α → Int) (l : List α) :
    List.Perm (jsSortBy cmp l) l := by
  induction l with
  | nil => exact List.Perm.refl _
  | cons a t ih => exact (jsInsert_perm cmp a (jsSortBy cmp t)).trans (ih.cons a)

theorem chain'_jsInsert (cmp : α → α → Int) (hanti : ∀ x y, cmp x y = -(cmp y x))
    (a : α) (l : List α) (h : l.Chain' (fun x y => cmp x y ≤ 0)) :
    (jsInsert cmp a l).Chain' (fun x y => cmp x y ≤ 0) := by
  induction l with
  | nil => simp [jsInsert]
  | cons b t ih =>
    simp only [jsInsert]
    split
    · exact h.cons (by assumption)
    · rename_i h1
      have h2 : cmp b a ≤ 0 := by have := hanti a b; omega
      have ht : t.Chain' (fun x y => cmp x y ≤ 0) := h.tail
      have hbt := ih ht
      rw [List.chain'_cons']
      refine ⟨?_, hbt⟩
      intro y hy
      cases t with
      | nil =>
        simp [jsInsert] at hy
        subst hy
        exact h2
      | cons c t' =>
        simp only [jsInsert] at hy
        split at hy
        · simp at hy
          subst hy
          exact h2
        · simp at hy
          subst hy
          exact (List.chain'_cons.mp h).1

theorem chain'_jsSortBy (cmp : α → α → Int) (hanti : ∀ x y, cmp x y = -(cmp y x))
    (l : List α) : (jsSortBy cmp l).Chain' (fun x y => cmp x y ≤ 0) := by
  induction l with
  | nil => simp [jsSortBy]
  | cons a t ih => exact chain'_jsInsert cmp hanti a _ ih

theorem strCmpL_anti : ∀ s t, strCmpL s t = -(strCmpL t s) := by
  intro s
  induction s with
  | nil => intro t; cases t <;> simp [strCmpL]
  | cons a as ih =>
    intro t
    cases t with
    | nil => simp [strCmpL]
    | cons b bs =>
      simp only [strCmpL]
      rcases Nat.lt_trichotomy a.toNat b.toNat with h | h | h
      · simp [h, Nat.lt_asymm h]
      · simp [h, Nat.lt_irrefl, ih bs]
      · simp [h, Nat.lt_asymm h]

theorem localeCompare_anti (s t : String) : localeCompare s t = -(localeCompare t s) :=
  strCmpL_anti s.data t.data

theorem jsCmpNum_anti (a b : NumV) : jsCmpNum a b = -(jsCmpNum b a) := by
  cases a <;> cases b <;>
    simp only [jsCmpNum, nsub, nadd, nneg] <;> try rfl
  rename_i x y
  rcases lt_trichotomy x y with h | h | h
  · have h1 : x + -y < 0 := by linarith
    have h2 : 0 < y + -x := by linarith
    simp [h1, h2, not_lt.mpr (le_of_lt h2)]
  · subst h
    simp
  · have h1 : 0 < x + -y := by linarith
    have h2 : y + -x < 0 := by linarith
    simp [h1, h2, not_lt.mpr (le_of_lt h1)]

theorem sortFunction_anti (a b : Option JSVal) : sortFunction a b = -(sortFunction b a) := by
  simp only [sortFunction]
  rcases Decidable.em (toNumberO a = NumV.nan) with ha | ha <;>
    rcases Decidable.em (toNumberO b = NumV.nan) with hb | hb
  · rw [if_neg (by tauto), if_neg (by tauto)]
    exact localeCompare_anti _ _
  · rw [if_neg (by tauto), if_neg (by tauto)]
    exact localeCompare_anti _ _
  · rw [if_neg (by tauto), if_neg (by tauto)]
    exact localeCompare_anti _ _
  · rw [if_pos ⟨ha, hb⟩, if_pos ⟨hb, ha⟩]
    exact jsCmpNum_anti _ _

theorem aggCmp_anti (a b : AggEntry) : aggCmp a b = -(aggCmp b a) := by
  obtain ⟨ga, va⟩ := a
  obtain ⟨gb, vb⟩ := b
  cases ga <;> cases gb <;>
    first
      | exact jsCmpNum_anti _ _
      | exact localeCompare_anti _ _

theorem outlierStep_sublist (t : ℚ) (d : List JSRec) (f : String) :
    (outlierStep t d f).Sublist d :=
  List.filter_sublist d

theorem removeOutliers_sublist (d : List JSRec) (N : List String) (t : ℚ) :
    (removeOutliers d N t).Sublist d := by
  induction N generalizing d with
  | nil => exact List.Sublist.refl d
  | cons f fs ih =>
    exact ((ih (outlierStep t d f)).trans (outlierStep_sublist t d f) :)

/-- C1 (amended): for every dataset `D`, numeric-column list `N` and threshold
`t ≥ 0`, applying `removeOutliers` to its own output returns an order-preserving
subsequence of that output — no record is ever added — but idempotence fails in
general: the re-application may remove further records, because the quartile
bounds are recomputed on the already-filtered data. -/
theorem removeOutliers_reapply_sublist (D : List JSRec) (N : List String) (t : ℚ)
    (_ht : 0 ≤ t) :
    (removeOutliers (removeOutliers D N t) N t).Sublist (removeOutliers D N t) :=
  removeOutliers_sublist _ N t

/-- Witness for `removeOutliers_reapply_sublist` at a concrete input. -/
theorem removeOutliers_reapply_sublist_witness :
    (0 : ℚ) ≤ 3 / 2 ∧
      (removeOutliers
          (removeOutliers [[(("a"), JSVal.num (.fin 0))], [(("a"), JSVal.num (.fin 9))]]
            [("a")] (3 / 2))
          [("a")] (3 / 2)).Sublist
        (removeOutliers [[(("a"), JSVal.num (.fin 0))], [(("a"), JSVal.num (.fin 9))]]
          [("a")] (3 / 2)) :=
  ⟨by norm_num,
    removeOutliers_reapply_sublist [[(("a"), JSVal.num (.fin 0))], [(("a"), JSVal.num (.fin 9))]]
      [("a")] (3 / 2) (by norm_num)⟩

/-- C1 counterexample: `removeOutliers` is not idempotent as claimed. On the
single-column dataset with values `[0,1,2,3,4,5,5,6]` and threshold `0`, the
first pass keeps `[2,3,4,5,5]` (bounds `Q1=2`, `Q3=5`), and the second pass,
whose recomputed `Q1` is `3`, removes the record with value `2`. -/
theorem removeOutliers_not_idempotent :
    ¬ (removeOutliers
        (removeOutliers
          [[(("a"), JSVal.num (.fin 0))], [(("a"), JSVal.num (.fin 1))],
           [(("a"), JSVal.num (.fin 2))], [(("a"), JSVal.num (.fin 3))],
           [(("a"), JSVal.num (.fin 4))], [(("a"), JSVal.num (.fin 5))],
           [(("a"), JSVal.num (.fin 5))], [(("a"), JSVal.num (.fin 6))]]
          [("a")] 0)
        [("a")] 0 =
      removeOutliers
        [[(("a"), JSVal.num (.fin 0))], [(("a"), JSVal.num (.fin 1))],
         [(("a"), JSVal.num (.fin 2))], [(("a"), JSVal.num (.fin 3))],
         [(("a"), JSVal.num (.fin 4))], [(("a"), JSVal.num (.fin 5))],
         [(("a"), JSVal.num (.fin 5))], [(("a"), JSVal.num (.fin 6))]]
        [("a")] 0) := by
  with_unfolding_all decide

/-- C2 (amended): for every dataset and x/y features, the line-chart projection
is a permutation of the record-wise `{x, y}` projection sorted ascending by `x`
(adjacent pairs are ordered by the numeric comparator on `x`), and the example
from the specification holds; the scatter-plot projection, however, is the
`{x, y}` projection in dataset order — it is not sorted. -/
theorem linechart_sorted_scatterplot_in_dataset_order (D : List JSRec) (xF yF : String) :
    (linechartValues D xF yF).Chain'
        (fun a b => jsCmpNum (toNumberO a.x) (toNumberO b.x) ≤ 0)
    ∧ List.Perm (linechartValues D xF yF)
        (D.map (fun d => XYPoint.mk (lookupF d xF) (lookupF d yF)))
    ∧ scatterplotValues D xF yF = D.map (fun d => XYPoint.mk (lookupF d xF) (lookupF d yF))
    ∧ linechartValues
        [[(("x"), JSVal.num (.fin 1)), (("y"), JSVal.num (.fin 10))],
         [(("x"), JSVal.num (.fin 3)), (("y"), JSVal.num (.fin 5))],
         [(("x"), JSVal.num (.fin 2)), (("y"), JSVal.num (.fin 8))]] ("x") ("y") =
      [XYPoint.mk (some (JSVal.num (.fin 1))) (some (JSVal.num (.fin 10))),
       XYPoint.mk (some (JSVal.num (.fin 2))) (some (JSVal.num (.fin 8))),
       XYPoint.mk (some (JSVal.num (.fin 3))) (some (JSVal.num (.fin 5)))] := by
  refine ⟨?_, ?_, rfl, by with_unfolding_all decide⟩
  · exact chain'_jsSortBy _ (fun a b => jsCmpNum_anti _ _) _
  · exact jsSortBy_perm _ _

/-- C2 counterexample: the scatter-plot projection of the dataset
`[{x:3, y:0}, {x:1, y:0}]` is emitted in dataset order `[3, 1]`, which is not
sorted ascending by `x`. -/
theorem scatterplot_not_sorted_by_x :
    ¬ (scatterplotValues
        [[(("x"), JSVal.num (.fin 3)), (("y"), JSVal.num (.fin 0))],
         [(("x"), JSVal.num (.fin 1)), (("y"), JSVal.num (.fin 0))]] ("x") ("y")).Chain'
        (fun a b => jsCmpNum (toNumberO a.x) (toNumberO b.x) ≤ 0) := by
  simp only [scatterplotValues, List.map, List.chain'_cons, List.chain'_singleton, and_true]
  with_unfolding_all decide

/-- C5: `applyFiltering` is idempotent — filtering an already-filtered dataset
with the same filter list changes nothing — and filtering with the empty filter
list returns the dataset unchanged. -/
theorem applyFiltering_idempotent_and_empty (D : List JSRec) (F : List Filter) :
    applyFiltering (applyFiltering D F) F = applyFiltering D F
    ∧ applyFiltering D [] = D := by
  constructor
  · simp only [applyFiltering, List.filter_filter, Bool.and_self]
  · simp [applyFiltering]

theorem identifyNumericColumnsAux_empty_data (types : List String) :
    ∀ (fs : List String) (i : Nat), i + fs.length ≤ types.length →
      identifyNumericColumnsAux [] types i fs =
        ((fs.zip (types.drop i)).filter
          (fun p => p.2 == ("number") || p.2 == ("enum"))).map Prod.fst := by
  intro fs
  induction fs with
  | nil => intro i h; rfl
  | cons f fs ih =>
    intro i h
    have hi : i < types.length := by
      simp only [List.length_cons] at h
      omega
    have hdrop : types.drop i = types[i] :: types.drop (i + 1) :=
      List.drop_eq_getElem_cons hi
    have hget : types.get? i = some types[i] := by
      simp [List.get?_eq_getElem?, List.getElem?_eq_getElem hi]
    have hrec := ih (i + 1) (by simp only [List.length_cons] at h; omega)
    simp only [identifyNumericColumnsAux, hget, hdrop, List.zip_cons_cons, List.filter_cons,
      hrec]
    by_cases h1 : types[i] = ("number")
    · simp [h1]
    · by_cases h2 : types[i] = ("enum")
      · simp [h1, h2]
      · simp [h1, h2]

/-- C10: on an empty dataset, `identifyNumericColumns` classifies as numeric
exactly the features whose declared type is `number` or `enum`: the
all-records-are-numbers check backing an `enum` promotion quantifies over no
records, so every `enum`-declared column passes it vacuously. -/
theorem identifyNumericColumns_empty_data (features types : List String)
    (h : features.length = types.length) :
    identifyNumericColumns [] features types =
      ((features.zip types).filter
        (fun p => p.2 == ("number") || p.2 == ("enum"))).map Prod.fst := by
  have := identifyNumericColumnsAux_empty_data types features 0 (by omega)
  simpa using this

/-- Witness for `identifyNumericColumns_empty_data` at a concrete input. -/
theorem identifyNumericColumns_empty_data_witness :
    ([("f1"), ("f2"), ("f3")] : List String).length =
        ([("number"), ("enum"), ("string")] : List String).length
    ∧ identifyNumericColumns [] [("f1"), ("f2"), ("f3")] [("number"), ("enum"), ("string")] =
      (([("f1"), ("f2"), ("f3")].zip [("number"), ("enum"), ("string")]).filter
        (fun p => p.2 == ("number") || p.2 == ("enum"))).map Prod.fst :=
  ⟨rfl, identifyNumericColumns_empty_data _ _ rfl⟩

theorem nltB_nan_right (a : NumV) : nltB a .nan = false := by cases a <;> rfl

theorem nleB_nan_right (a : NumV) : nleB a .nan = false := by cases a <;> rfl

theorem nltB_nan_left (a : NumV) : nltB .nan a = false := by cases a <;> rfl

theorem nleB_nan_left (a : NumV) : nleB .nan a = false := by cases a <;> rfl

/-- C6: semantics of the per-filter predicate: a record whose value for the
filter's column is null or absent fails the filter; `==` compares with loose
equality; the ordering operators coerce the filter's value to a number and are
false whenever that coercion is `NaN`; any unrecognized operator string lets
the record pass. -/
theorem filterPred_semantics (d : JSRec) (fil : Filter) :
    ((lookupF d fil.column = none ∨ lookupF d fil.column = some JSVal.null) →
      filterPred d fil = false)
    ∧ (∀ v, lookupF d fil.column = some v → v ≠ JSVal.null → fil.operator = ("==") →
      filterPred d fil = looseEq v fil.value)
    ∧ ((fil.operator = ("<") ∨ fil.operator = ("<=") ∨ fil.operator = (">") ∨
        fil.operator = (">=")) → toNumberV fil.value = NumV.nan →
      filterPred d fil = false)
    ∧ (∀ v, lookupF d fil.column = some v → v ≠ JSVal.null →
      fil.operator ≠ ("==") → fil.operator ≠ ("<") → fil.operator ≠ ("<=") →
      fil.operator ≠ (">") → fil.operator ≠ (">=") → filterPred d fil = true) := by
  refine ⟨?_, ?_, ?_, ?_⟩
  · rintro (h | h) <;> simp [filterPred, h]
  · intro v hv hnull hop
    cases v <;> simp [filterPred, hv, hop] at hnull ⊢
  · intro hop hnan
    cases hv : lookupF d fil.column with
    | none => simp [filterPred, hv]
    | some v =>
      cases v <;>
        rcases hop with h | h | h | h <;>
          simp [filterPred, hv, h, hnan, nltB_nan_right, nleB_nan_right,
            nltB_nan_left, nleB_nan_left]
  · intro v hv hnull h1 h2 h3 h4 h5
    cases v <;> simp [filterPred, hv, h1, h2, h3, h4, h5] at hnull ⊢

/-- Witness for `filterPred_semantics` at concrete inputs: an absent value
fails; `<` against a filter value that coerces to `NaN` fails; an unknown
operator passes; `==` agrees with loose equality. -/
theorem filterPred_semantics_witness :
    filterPred [] (Filter.mk ("c") ("==") (JSVal.num (.fin 1))) = false
    ∧ filterPred [(("x"), JSVal.num (.fin 5))] (Filter.mk ("x") ("<") (JSVal.str ("abc"))) = false
    ∧ filterPred [(("x"), JSVal.num (.fin 5))] (Filter.mk ("x") ("~~") (JSVal.str ("zz"))) = true
    ∧ filterPred [(("x"), JSVal.num (.fin 5))] (Filter.mk ("x") ("==") (JSVal.str ("5"))) =
        looseEq (JSVal.num (.fin 5)) (JSVal.str ("5")) :=
  ⟨(filterPred_semantics _ _).1 (Or.inl rfl),
   (filterPred_semantics _ _).2.2.1 (Or.inl rfl) (by with_unfolding_all decide),
   (filterPred_semantics _ _).2.2.2 _ rfl (by decide) (by decide) (by decide) (by decide)
     (by decide) (by decide),
   (filterPred_semantics _ _).2.1 _ rfl (by decide) rfl⟩

theorem foldl_groupStep_filter (g v : String) (D : List JSRec) :
    ∀ gs, (D.filter (fun r => !aggRowSkipped r g v)).foldl (groupStep g v) gs =
      D.foldl (groupStep g v) gs := by
  induction D with
  | nil => intro gs; rfl
  | cons r D ih =>
    intro gs
    by_cases h : aggRowSkipped r g v
    · simp [List.filter_cons, h, ih, groupStep]
    · simp [List.filter_cons, h, ih, groupStep]

theorem buildGroups_filter (D : List JSRec) (g v : String) :
    buildGroups (D.filter (fun r => !aggRowSkipped r g v)) g v = buildGroups D g v :=
  foldl_groupStep_filter g v D []

/-- C3 (amended): `aggregateData` skips exactly those records whose grouping
value or numeric value is null/absent, whose numeric value is not of number
type, or whose numeric value is `NaN`; positive and negative infinity are *not*
skipped (the guard tests `isNaN`, not finiteness). Skipped records contribute
to no group: dropping them from the dataset leaves the result unchanged. -/
theorem aggregateData_skip_semantics (D : List JSRec) (g v m : String) :
    (∀ r : JSRec, aggRowSkipped r g v = false ↔
      ∃ gv n, lookupF r g = some gv ∧ gv ≠ JSVal.null ∧
        lookupF r v = some (JSVal.num n) ∧ n ≠ NumV.nan)
    ∧ aggregateData D g v m =
        aggregateData (D.filter (fun r => !aggRowSkipped r g v)) g v m := by
  constructor
  · intro r
    cases h1 : lookupF r g with
    | none => simp [aggRowSkipped, h1]
    | some gv =>
      cases h2 : lookupF r v with
      | none => cases gv <;> simp [aggRowSkipped, h1, h2]
      | some vv =>
        cases gv <;> cases vv <;>
          first
            | (rename_i n; cases n <;> simp [aggRowSkipped, h1, h2])
            | simp [aggRowSkipped, h1, h2]
  · cases hD : D with
    | nil => rfl
    | cons r D' =>
      have hbg := buildGroups_filter (r :: D') g v
      cases hF : (r :: D').filter (fun r => !aggRowSkipped r g v) with
      | nil =>
        have : buildGroups (r :: D') g v = [] := by
          rw [← hbg, hF]
          rfl
        simp [aggregateData, this, jsSortBy]
      | cons r' F' =>
        simp only [aggregateData, ← hbg, hF]

/-- C3 counterexample: a record whose numeric value is `Infinity` is *not*
skipped — the guard tests `isNaN`, not finiteness — and its infinite value
reaches the aggregation, contradicting the claim that non-finite values
(including positive/negative infinity) are skipped. -/
theorem aggregateData_keeps_infinity :
    aggRowSkipped [(("g"), JSVal.str ("a")), (("v"), JSVal.num NumV.posInf)] ("g") ("v") = false
    ∧ aggregateData [[(("g"), JSVal.str ("a")), (("v"), JSVal.num NumV.posInf)]]
        ("g") ("v") ("sum") =
      [AggEntry.mk (JSVal.str ("a")) NumV.posInf] := by
  constructor
  · rfl
  · with_unfolding_all decide

theorem lookupF_recSet_self (r : JSRec) (f : String) (v : JSVal) :
    lookupF (recSet r f v) f = some v := by
  induction r with
  | nil => simp [recSet, lookupF]
  | cons p rest ih =>
    obtain ⟨g, w⟩ := p
    by_cases h : g = f
    · simp [recSet, h, lookupF]
    · simpa [recSet, h, lookupF, List.find?_cons, h] using ih

theorem lookupF_recSet_other (r : JSRec) (f g : String) (v : JSVal) (hne : g ≠ f) :
    lookupF (recSet r f v) g = lookupF r g := by
  induction r with
  | nil => simp [recSet, lookupF, Ne.symm hne]
  | cons p rest ih =>
    obtain ⟨g', w⟩ := p
    by_cases h : g' = f
    · subst h
      simp [recSet, lookupF, List.find?_cons, Ne.symm hne]
    · by_cases h2 : g' = g
      · subst h2
        simp [recSet, h, lookupF, List.find?_cons]
      · simpa [recSet, h, lookupF, List.find?_cons, h2] using ih

theorem normalizeStep_length (d : List JSRec) (f : String) :
    (normalizeStep d f).length = d.length := by
  simp only [normalizeStep]
  split <;> simp

theorem foldl_normalizeStep_length (fs : List String) : ∀ d : List JSRec,
    (fs.foldl normalizeStep d).length = d.length := by
  induction fs with
  | nil => intro d; rfl
  | cons f fs ih =>
    intro d
    rw [List.foldl_cons, ih, normalizeStep_length]

theorem normalizeStep_lookup_other (d : List JSRec) (f g : String) (hne : g ≠ f)
    (i : Nat) (r : JSRec) (hr : d[i]? = some r) :
    ∃ r', (normalizeStep d f)[i]? = some r' ∧ lookupF r' g = lookupF r g := by
  simp only [normalizeStep]
  split
  · exact ⟨r, hr, rfl⟩
  · refine ⟨_, by rw [List.getElem?_map, hr]; rfl, ?_⟩
    exact lookupF_recSet_other _ _ _ _ hne

theorem foldl_normalizeStep_lookup_other (g : String) :
    ∀ (fs : List String), g ∉ fs → ∀ (d : List JSRec) (i : Nat) (r : JSRec), d[i]? = some r →
      ∃ r', (fs.foldl normalizeStep d)[i]? = some r' ∧ lookupF r' g = lookupF r g := by
  intro fs
  induction fs with
  | nil => exact fun _ d i r hr => ⟨r, hr, rfl⟩
  | cons f fs ih =>
    intro hg d i r hr
    have hgf : g ≠ f := by simp only [List.mem_cons] at hg; tauto
    have hgfs : g ∉ fs := by simp only [List.mem_cons] at hg; tauto
    obtain ⟨r1, hr1, he1⟩ := normalizeStep_lookup_other d f g hgf i r hr
    obtain ⟨r2, hr2, he2⟩ := ih hgfs (normalizeStep d f) i r1 hr1
    exact ⟨r2, hr2, he2.trans he1⟩

theorem columnVals_foldl_normalizeStep (fs : List String) (g : String) (hg : g ∉ fs)
    (d : List JSRec) : columnVals (fs.foldl normalizeStep d) g = columnVals d g := by
  apply List.ext_getElem?
  intro i
  simp only [columnVals, List.getElem?_map]
  cases hr : d[i]? with
  | none =>
    have hlen : d.length ≤ i := by
      by_contra hlt
      rw [List.getElem?_eq_getElem (by omega)] at hr
      exact (Option.some_ne_none _) hr
    have : (fs.foldl normalizeStep d)[i]? = none :=
      List.getElem?_eq_none (by rw [foldl_normalizeStep_length]; exact hlen)
    rw [this]
  | some r =>
    obtain ⟨r', hr', he⟩ := foldl_normalizeStep_lookup_other g fs hg d i r hr
    rw [hr']
    simp [he]

theorem nMin2_fin_fin (a b : ℚ) : nMin2 (.fin a) (.fin b) = .fin (min a b) := by
  simp only [nMin2, nleB]
  split
  · rename_i h
    simp only [decide_eq_true_eq] at h
    rw [min_eq_left h]
  · rename_i h
    simp only [decide_eq_true_eq] at h
    rw [min_eq_right (le_of_not_le h)]

theorem nMax2_fin_fin (a b : ℚ) : nMax2 (.fin a) (.fin b) = .fin (max a b) := by
  simp only [nMax2, nleB]
  split
  · rename_i h
    simp only [decide_eq_true_eq] at h
    rw [max_eq_right h]
  · rename_i h
    simp only [decide_eq_true_eq] at h
    rw [max_eq_left (le_of_not_le h)]

theorem foldl_nMin2_fin (l : List (Option JSVal)) :
    ∀ a : ℚ, (∀ o ∈ l, ∃ q : ℚ, o = some (.num (.fin q))) →
      ∃ m : ℚ, l.foldl (fun acc v => nMin2 acc (toNumberO v)) (.fin a) = .fin m ∧ m ≤ a ∧
        ∀ o ∈ l, ∀ q : ℚ, o = some (.num (.fin q)) → m ≤ q := by
  induction l with
  | nil => exact fun a _ => ⟨a, rfl, le_refl a, by simp⟩
  | cons o t ih =>
    intro a h
    obtain ⟨q, rfl⟩ := h o (List.mem_cons_self o t)
    obtain ⟨m, hm, hma, hml⟩ := ih (min a q) (fun x hx => h x (List.mem_cons_of_mem _ hx))
    refine ⟨m, ?_, le_trans hma (min_le_left _ _), ?_⟩
    · rw [List.foldl_cons]
      show List.foldl _ (nMin2 (.fin a) (.fin q)) t = _
      rw [nMin2_fin_fin]
      exact hm
    · intro x hx q' hq'
      rcases List.mem_cons.mp hx with h1 | h1

      · have : q = q' := by
          rw [h1] at hq'
          injection hq' with h2
          injection h2 with h3
          injection h3
        exact this ▸ le_trans hma (min_le_right _ _)
      · exact hml x h1 q' hq'

theorem foldl_nMax2_fin (l : List (Option JSVal)) :
    ∀ a : ℚ, (∀ o ∈ l, ∃ q : ℚ, o = some (.num (.fin q))) →
      ∃ m : ℚ, l.foldl (fun acc v => nMax2 acc (toNumberO v)) (.fin a) = .fin m ∧ a ≤ m ∧
        ∀ o ∈ l, ∀ q : ℚ, o = some (.num (.fin q)) → q ≤ m := by
  induction l with
  | nil => exact fun a _ => ⟨a, rfl, le_refl a, by simp⟩
  | cons o t ih =>
    intro a h
    obtain ⟨q, rfl⟩ := h o (List.mem_cons_self o t)
    obtain ⟨m, hm, hma, hml⟩ := ih (max a q) (fun x hx => h x (List.mem_cons_of_mem _ hx))
    refine ⟨m, ?_, le_trans (le_max_left _ _) hma, ?_⟩
    · rw [List.foldl_cons]
      show List.foldl _ (nMax2 (.fin a) (.fin q)) t = _
      rw [nMax2_fin_fin]
      exact hm
    · intro x hx q' hq'
      rcases List.mem_cons.mp hx with h1 | h1
      · have : q = q' := by
          rw [h1] at hq'
          injection hq' with h2
          injection h2 with h3
          injection h3
        exact this ▸ le_trans (le_max_right _ _) hma
      · exact hml x h1 q' hq'

theorem mathMinList_fin (o : Option JSVal) (t : List (Option JSVal))
    (h : ∀ x ∈ o :: t, ∃ q : ℚ, x = some (.num (.fin q))) :
    ∃ m : ℚ, mathMinList (o :: t) = .fin m ∧
      ∀ x ∈ o :: t, ∀ q : ℚ, x = some (.num (.fin q)) → m ≤ q := by
  obtain ⟨q, rfl⟩ := h _ (List.mem_cons_self o t)
  obtain ⟨m, hm, hmq, hml⟩ := foldl_nMin2_fin t q (fun x hx => h x (List.mem_cons_of_mem _ hx))
  refine ⟨m, ?_, ?_⟩
  · simp only [mathMinList, List.foldl_cons]
    show List.foldl _ (nMin2 .posInf (.fin q)) t = _
    have : nMin2 .posInf (.fin q) = .fin q := rfl
    rw [this]
    exact hm
  · intro x hx q' hq'
    rcases List.mem_cons.mp hx with h1 | h1
    · have : q = q' := by
        rw [h1] at hq'
        injection hq' with h2
        injection h2 with h3
        injection h3
      exact this ▸ hmq
    · exact hml x h1 q' hq'

theorem mathMaxList_fin (o : Option JSVal) (t : List (Option JSVal))
    (h : ∀ x ∈ o :: t, ∃ q : ℚ, x = some (.num (.fin q))) :
    ∃ m : ℚ, mathMaxList (o :: t) = .fin m ∧
      ∀ x ∈ o :: t, ∀ q : ℚ, x = some (.num (.fin q)) → q ≤ m := by
  obtain ⟨q, rfl⟩ := h _ (List.mem_cons_self o t)
  obtain ⟨m, hm, hmq, hml⟩ := foldl_nMax2_fin t q (fun x hx => h x (List.mem_cons_of_mem _ hx))
  refine ⟨m, ?_, ?_⟩
  · simp only [mathMaxList, List.foldl_cons]
    show List.foldl _ (nMax2 .negInf (.fin q)) t = _
    have : nMax2 .negInf (.fin q) = .fin q := rfl
    rw [this]
    exact hm
  · intro x hx q' hq'
    rcases List.mem_cons.mp hx with h1 | h1
    · have : q = q' := by
        rw [h1] at hq'
        injection hq' with h2
        injection h2 with h3
        injection h3
      exact this ▸ hmq
    · exact hml x h1 q' hq'

theorem nsub_fin_fin (a b : ℚ) : nsub (.fin a) (.fin b) = .fin (a - b) := by
  simp [nsub, nadd, nneg, sub_eq_add_neg]

theorem ndiv_fin_fin (a b : ℚ) (h : b ≠ 0) : ndiv (.fin a) (.fin b) = .fin (a / b) := by
  simp [ndiv, h]

theorem normalizeStep_preserves_numeric (N : List String) (d : List JSRec) (f : String)
    (hf : f ∈ N) (P : ∀ r ∈ d, ∀ g ∈ N, ∃ q : ℚ, lookupF r g = some (.num (.fin q))) :
    ∀ r' ∈ normalizeStep d f, ∀ g ∈ N, ∃ q : ℚ, lookupF r' g = some (.num (.fin q)) := by
  simp only [normalizeStep]
  split
  · exact P
  · rename_i hne
    intro r' hr' g hg
    rw [List.mem_map] at hr'
    obtain ⟨r, hr, rfl⟩ := hr'
    by_cases hgf : g = f
    · subst hgf
      rw [lookupF_recSet_self]
      have hfin : ∀ x ∈ columnVals d g, ∃ q : ℚ, x = some (.num (.fin q)) := by
        intro x hx
        rw [columnVals, List.mem_map] at hx
        obtain ⟨rr, hrr, rfl⟩ := hx
        exact P rr hrr g hg
      obtain ⟨o, t, hco⟩ : ∃ o t, columnVals d g = o :: t := by
        cases d with
        | nil => cases hr
        | cons a l => exact ⟨_, _, rfl⟩
      rw [hco] at hfin
      obtain ⟨mnq, hmn, _⟩ := mathMinList_fin o t hfin
      obtain ⟨mxq, hmx, _⟩ := mathMaxList_fin o t hfin
      rw [← hco] at hmn hmx
      rw [hmn, hmx] at hne ⊢
      have hneq : mnq ≠ mxq := by
        intro h
        rw [h] at hne
        simp [nStrictEqB] at hne
      obtain ⟨q, hq⟩ := P r hr g hg
      rw [hq]
      have : toNumberO (some (JSVal.num (.fin q))) = .fin q := rfl
      rw [this, nsub_fin_fin, nsub_fin_fin,
        ndiv_fin_fin _ _ (sub_ne_zero.mpr (Ne.symm hneq))]
      exact ⟨_, rfl⟩
    · rw [lookupF_recSet_other _ _ _ _ hgf]
      exact P r hr g hg

theorem foldl_normalizeStep_preserves_numeric (N : List String) :
    ∀ (fs : List String), (∀ f ∈ fs, f ∈ N) → ∀ (d : List JSRec),
      (∀ r ∈ d, ∀ g ∈ N, ∃ q : ℚ, lookupF r g = some (.num (.fin q))) →
      ∀ r' ∈ fs.foldl normalizeStep d, ∀ g ∈ N, ∃ q : ℚ, lookupF r' g = some (.num (.fin q)) := by
  intro fs
  induction fs with
  | nil => exact fun _ d P => P
  | cons f fs ih =>
    intro hsub d P
    exact ih (fun x hx => hsub x (List.mem_cons_of_mem _ hx)) _
      (normalizeStep_preserves_numeric N d f (hsub f (List.mem_cons_self _ _)) P)

/-- C4: for every dataset `D` and (duplicate-free) numeric-column list `N`
whose columns hold a finite number in every record, `applyNormalization D N`
maps each value `v` of a column with `min ≠ max` to `(v − min) / (max − min)`,
leaving every resulting value in `[0, 1]`; a column whose min equals its max is
left exactly unchanged. -/
theorem applyNormalization_minmax_scales (D : List JSRec) (N : List String)
    (hnum : ∀ r ∈ D, ∀ g ∈ N, ∃ q : ℚ, lookupF r g = some (.num (.fin q)))
    (hnd : N.Nodup) (f : String) (hf : f ∈ N) :
    (applyNormalization D N).length = D.length
    ∧ ∀ (i : Nat) (r : JSRec), D[i]? = some r →
      ∃ r' mnq mxq, (applyNormalization D N)[i]? = some r' ∧
        mathMinList (columnVals D f) = .fin mnq ∧ mathMaxList (columnVals D f) = .fin mxq ∧
        (mnq = mxq → lookupF r' f = lookupF r f) ∧
        (mnq ≠ mxq → ∃ q : ℚ, lookupF r f = some (.num (.fin q)) ∧
          lookupF r' f = some (.num (.fin ((q - mnq) / (mxq - mnq)))) ∧
          0 ≤ (q - mnq) / (mxq - mnq) ∧ (q - mnq) / (mxq - mnq) ≤ 1) := by
  constructor
  · exact foldl_normalizeStep_length N D
  · intro i r hr
    obtain ⟨N1, N2, rfl⟩ := List.append_of_mem hf
    rw [List.nodup_append] at hnd
    obtain ⟨hnd1, hnd2, hdisj⟩ := hnd
    have hfN1 : f ∉ N1 := fun hx => hdisj hx (List.mem_cons_self f N2)
    have hfN2 : f ∉ N2 := (List.nodup_cons.mp hnd2).1
    have hsplit : applyNormalization D (N1 ++ f :: N2) =
        N2.foldl normalizeStep (normalizeStep (N1.foldl normalizeStep D) f) := by
      simp [applyNormalization, List.foldl_append]
    have hcol : columnVals (N1.foldl normalizeStep D) f = columnVals D f :=
      columnVals_foldl_normalizeStep N1 f hfN1 D
    obtain ⟨r1, hr1, he1⟩ := foldl_normalizeStep_lookup_other f N1 hfN1 D i r hr
    have hrD : r ∈ D := by
      have := List.getElem?_eq_some_iff.mp hr
      obtain ⟨hlt, heq⟩ := this
      exact heq ▸ List.getElem_mem hlt
    have hfin : ∀ x ∈ columnVals D f, ∃ q : ℚ, x = some (.num (.fin q)) := by
      intro x hx
      rw [columnVals, List.mem_map] at hx
      obtain ⟨rr, hrr, rfl⟩ := hx
      exact hnum rr hrr f hf
    obtain ⟨o, t, hco⟩ : ∃ o t, columnVals D f = o :: t := by
      cases D with
      | nil => cases hrD
      | cons a l => exact ⟨_, _, rfl⟩
    rw [hco] at hfin
    obtain ⟨mnq, hmn, hmnle⟩ := mathMinList_fin o t hfin
    obtain ⟨mxq, hmx, hmxle⟩ := mathMaxList_fin o t hfin
    rw [← hco] at hmn hmx hmnle hmxle
    obtain ⟨q, hq⟩ := hnum r hrD f hf
    have hxmem : lookupF r f ∈ columnVals D f := by
      rw [columnVals]
      exact List.mem_map_of_mem _ hrD
    have hq1 : mnq ≤ q := hmnle _ hxmem q hq
    have hq2 : q ≤ mxq := hmxle _ hxmem q hq
    by_cases hmmx : mnq = mxq
    · have hstep : normalizeStep (N1.foldl normalizeStep D) f = N1.foldl normalizeStep D := by
        simp only [normalizeStep, hcol, hmn, hmx]
        rw [if_pos]
        simp [nStrictEqB, hmmx]
      obtain ⟨r2, hr2, he2⟩ :=
        foldl_normalizeStep_lookup_other f N2 hfN2 (N1.foldl normalizeStep D) i r1
          (by rw [← hstep] at hr1; exact hstep ▸ hr1)
      refine ⟨r2, mnq, mxq, ?_, hmn, hmx, ?_, ?_⟩
      · rw [hsplit, hstep]
        exact hr2
      · intro _
        exact he2.trans he1
      · intro h
        exact absurd hmmx h
    · have hlt : mnq < mxq := lt_of_le_of_ne (le_trans hq1 hq2) hmmx
      have hstrict : nStrictEqB (mathMinList (columnVals (N1.foldl normalizeStep D) f))
          (mathMaxList (columnVals (N1.foldl normalizeStep D) f)) = false := by
        rw [hcol, hmn, hmx]
        simp [nStrictEqB, hmmx]
      have hstep : normalizeStep (N1.foldl normalizeStep D) f =
          (N1.foldl normalizeStep D).map (fun datum =>
            recSet datum f (.num (ndiv
              (nsub (toNumberO (lookupF datum f)) (.fin mnq)) (.fin (mxq - mnq))))) := by
        simp only [normalizeStep, hcol, hmn, hmx, nsub_fin_fin]
        rw [if_neg (by simp [nStrictEqB, hmmx])]
      have hr2 : (normalizeStep (N1.foldl normalizeStep D) f)[i]? =
          some (recSet r1 f (.num (ndiv
            (nsub (toNumberO (lookupF r1 f)) (.fin mnq)) (.fin (mxq - mnq))))) := by
        rw [hstep, List.getElem?_map, hr1]
        rfl
      obtain ⟨r', hr', he'⟩ :=
        foldl_normalizeStep_lookup_other f N2 hfN2 _ i _ hr2
      refine ⟨r', mnq, mxq, ?_, hmn, hmx, ?_, ?_⟩
      · rw [hsplit]
        exact hr'
      · intro h
        exact absurd h hmmx
      · intro _
        refine ⟨q, hq, ?_, ?_, ?_⟩
        · rw [he', lookupF_recSet_self, he1, hq]
          have h1 : toNumberO (some (JSVal.num (.fin q))) = .fin q := rfl
          rw [h1, nsub_fin_fin, ndiv_fin_fin _ _ (sub_ne_zero.mpr (ne_of_gt hlt))]
        · exact div_nonneg (sub_nonneg.mpr hq1) (le_of_lt (sub_pos.mpr hlt))
        · rw [div_le_one (sub_pos.mpr hlt)]
          exact sub_le_sub_right hq2 mnq

/-- Witness for `applyNormalization_minmax_scales` on the single-column dataset
with values `0, 2, 4` (min `0`, max `4`; the middle record scales to `1/2`). -/
theorem applyNormalization_minmax_scales_witness :
    (∀ r ∈ [[(("a"), JSVal.num (.fin 0))], [(("a"), JSVal.num (.fin 2))],
        [(("a"), JSVal.num (.fin 4))]], ∀ g ∈ [("a")],
      ∃ q : ℚ, lookupF r g = some (.num (.fin q)))
    ∧ ((applyNormalization [[(("a"), JSVal.num (.fin 0))], [(("a"), JSVal.num (.fin 2))],
          [(("a"), JSVal.num (.fin 4))]] [("a")]).length =
        ([[(("a"), JSVal.num (.fin 0))], [(("a"), JSVal.num (.fin 2))],
          [(("a"), JSVal.num (.fin 4))]] : List JSRec).length
      ∧ ∀ (i : Nat) (r : JSRec), ([[(("a"), JSVal.num (.fin 0))], [(("a"), JSVal.num (.fin 2))],
          [(("a"), JSVal.num (.fin 4))]] : List JSRec)[i]? = some r →
        ∃ r' mnq mxq,
          (applyNormalization [[(("a"), JSVal.num (.fin 0))], [(("a"), JSVal.num (.fin 2))],
            [(("a"), JSVal.num (.fin 4))]] [("a")])[i]? = some r' ∧
          mathMinList (columnVals [[(("a"), JSVal.num (.fin 0))], [(("a"), JSVal.num (.fin 2))],
            [(("a"), JSVal.num (.fin 4))]] ("a")) = .fin mnq ∧
          mathMaxList (columnVals [[(("a"), JSVal.num (.fin 0))], [(("a"), JSVal.num (.fin 2))],
            [(("a"), JSVal.num (.fin 4))]] ("a")) = .fin mxq ∧
          (mnq = mxq → lookupF r' ("a") = lookupF r ("a")) ∧
          (mnq ≠ mxq → ∃ q : ℚ, lookupF r ("a") = some (.num (.fin q)) ∧
            lookupF r' ("a") = some (.num (.fin ((q - mnq) / (mxq - mnq)))) ∧
            0 ≤ (q - mnq) / (mxq - mnq) ∧ (q - mnq) / (mxq - mnq) ≤ 1)) :=
  ⟨by
    intro r hr g hg
    fin_cases hr <;> fin_cases hg <;> exact ⟨_, rfl⟩,
   applyNormalization_minmax_scales _ _
    (by intro r hr g hg; fin_cases hr <;> fin_cases hg <;> exact ⟨_, rfl⟩)
    (by simp) ("a") (by simp)⟩

theorem mem_addToGroups_fst (gs : List (JSVal × List NumV)) (k key : JSVal) (val : NumV) :
    k ∈ (addToGroups gs key val).map Prod.fst ↔ k ∈ gs.map Prod.fst ∨ k = key := by
  induction gs with
  | nil => simp [addToGroups]
  | cons p rest ih =>
    obtain ⟨k1, vs1⟩ := p
    by_cases h : k1 = key
    · subst h
      simp only [addToGroups, if_pos, List.map_cons, List.mem_cons]
      tauto
    · simp only [addToGroups, if_neg h, List.map_cons, List.mem_cons, ih]
      tauto

theorem addToGroups_nodup (gs : List (JSVal × List NumV)) (k : JSVal) (v : NumV)
    (h : (gs.map Prod.fst).Nodup) : ((addToGroups gs k v).map Prod.fst).Nodup := by
  induction gs with
  | nil => simp [addToGroups]
  | cons p rest ih =>
    obtain ⟨k1, vs1⟩ := p
    simp only [List.map_cons, List.nodup_cons] at h
    by_cases hk : k1 = k
    · subst hk
      simpa [addToGroups, List.nodup_cons] using h
    · simp only [addToGroups, if_neg hk, List.map_cons, List.nodup_cons]
      refine ⟨?_, ih h.2⟩
      rw [mem_addToGroups_fst]
      rintro (hx | rfl)
      · exact h.1 hx
      · exact hk rfl

theorem findVals_addToGroups_self (gs : List (JSVal × List NumV)) (k : JSVal) (v : NumV) :
    findVals (addToGroups gs k v) k = findVals gs k ++ [v] := by
  induction gs with
  | nil => simp [addToGroups, findVals]
  | cons p rest ih =>
    obtain ⟨k1, vs1⟩ := p
    by_cases h : k1 = k
    · subst h
      simp [addToGroups, findVals, List.find?_cons]
    · simpa [addToGroups, h, findVals, List.find?_cons] using ih

theorem findVals_addToGroups_other (gs : List (JSVal × List NumV)) (k k' : JSVal) (v : NumV)
    (h : k' ≠ k) : findVals (addToGroups gs k v) k' = findVals gs k' := by
  induction gs with
  | nil => simp [addToGroups, findVals, List.find?_cons, Ne.symm h]
  | cons p rest ih =>
    obtain ⟨k1, vs1⟩ := p
    by_cases h1 : k1 = k
    · subst h1
      simp [addToGroups, findVals, List.find?_cons, Ne.symm h]
    · by_cases h2 : k1 = k'
      · subst h2
        simp [addToGroups, h1, findVals, List.find?_cons]
      · simpa [addToGroups, h1, findVals, List.find?_cons, h2] using ih

theorem findVals_of_mem_nodup (gs : List (JSVal × List NumV))
    (h : (gs.map Prod.fst).Nodup) (k : JSVal) (vs : List NumV) (hm : (k, vs) ∈ gs) :
    findVals gs k = vs := by
  induction gs with
  | nil => cases hm
  | cons p rest ih =>
    obtain ⟨k1, vs1⟩ := p
    simp only [List.map_cons, List.nodup_cons] at h
    rcases List.mem_cons.mp hm with heq | hm'
    · obtain ⟨rfl, rfl⟩ := Prod.mk.injEq .. |>.mp heq.symm
      simp [findVals, List.find?_cons]
    · have hk1 : k1 ≠ k := by
        rintro rfl
        exact h.1 (List.mem_map_of_mem Prod.fst hm')
      simpa [findVals, List.find?_cons, hk1] using ih h.2 hm'

theorem foldl_groupStep_nodup (g v : String) (D : List JSRec) :
    ∀ gs, (gs.map Prod.fst).Nodup → ((D.foldl (groupStep g v) gs).map Prod.fst).Nodup := by
  induction D with
  | nil => exact fun _ h => h
  | cons r D ih =>
    intro gs h
    rw [List.foldl_cons]
    by_cases hsk : aggRowSkipped r g v
    · rw [groupStep, if_pos hsk]
      exact ih gs h
    · rw [groupStep, if_neg hsk]
      exact ih _ (addToGroups_nodup gs _ _ h)

theorem addToGroups_vals_ne_nil (gs : List (JSVal × List NumV)) (k : JSVal) (v : NumV)
    (h : ∀ p ∈ gs, p.2 ≠ []) : ∀ p ∈ addToGroups gs k v, p.2 ≠ [] := by
  induction gs with
  | nil =>
    intro p hp
    simp only [addToGroups, List.mem_singleton] at hp
    subst hp
    simp
  | cons q rest ih =>
    obtain ⟨k1, vs1⟩ := q
    intro p hp
    by_cases h1 : k1 = k
    · subst h1
      simp only [addToGroups, if_pos, List.mem_cons] at hp
      rcases hp with rfl | hp
      · simp
      · exact h p (List.mem_cons_of_mem _ hp)
    · simp only [addToGroups, if_neg h1, List.mem_cons] at hp
      rcases hp with rfl | hp
      · exact h _ (List.mem_cons_self _ _)
      · exact ih (fun x hx => h x (List.mem_cons_of_mem _ hx)) p hp

theorem foldl_groupStep_vals_ne_nil (g v : String) (D : List JSRec) :
    ∀ gs, (∀ p ∈ gs, p.2 ≠ []) → ∀ p ∈ D.foldl (groupStep g v) gs, p.2 ≠ [] := by
  induction D with
  | nil => exact fun _ h => h
  | cons r D ih =>
    intro gs h
    rw [List.foldl_cons]
    by_cases hsk : aggRowSkipped r g v
    · rw [groupStep, if_pos hsk]
      exact ih gs h
    · rw [groupStep, if_neg hsk]
      exact ih _ (addToGroups_vals_ne_nil gs _ _ h)

theorem foldl_groupStep_findVals (g v : String) (D : List JSRec) :
    ∀ gs (k : JSVal), findVals (D.foldl (groupStep g v) gs) k =
      findVals gs k ++ groupValsOf D g v k := by
  induction D with
  | nil => simp [groupValsOf]
  | cons r D ih =>
    intro gs k
    rw [List.foldl_cons]
    by_cases hsk : aggRowSkipped r g v
    · rw [groupStep, if_pos hsk, ih]
      simp [groupValsOf, List.filter_cons, hsk]
    · rw [groupStep, if_neg hsk]
      by_cases hk : keyOfRow r g = k
      · subst hk
        rw [ih, findVals_addToGroups_self]
        simp [groupValsOf, List.filter_cons, hsk]
      · rw [ih, findVals_addToGroups_other _ _ _ _ (Ne.symm hk)]
        simp [groupValsOf, List.filter_cons, hsk, hk]

theorem foldl_groupStep_keys_mem (g v : String) (D : List JSRec) :
    ∀ gs (k : JSVal), k ∈ (D.foldl (groupStep g v) gs).map Prod.fst ↔
      k ∈ gs.map Prod.fst ∨ ∃ r ∈ D, aggRowSkipped r g v = false ∧ keyOfRow r g = k := by
  induction D with
  | nil => simp
  | cons r D ih =>
    intro gs k
    rw [List.foldl_cons]
    by_cases hsk : aggRowSkipped r g v
    · rw [groupStep, if_pos hsk, ih]
      simp only [List.exists_mem_cons_iff, hsk]
      simp
    · rw [groupStep, if_neg hsk, ih, mem_addToGroups_fst]
      rw [List.exists_mem_cons_iff]
      have hskf : aggRowSkipped r g v = false := by simpa using hsk
      constructor
      · rintro ((hx | rfl) | hex)
        · exact Or.inl hx
        · exact Or.inr (Or.inl ⟨hskf, rfl⟩)
        · exact Or.inr (Or.inr hex)
      · rintro (hx | ⟨_, hk⟩ | hex)
        · exact Or.inl (Or.inl hx)
        · exact Or.inl (Or.inr hk.symm)
        · exact Or.inr hex

/-- C7: for every dataset, `aggregateData` with method `average` yields exactly
one result entry per distinct non-empty group — the emitted group keys are
duplicate-free and are exactly the group keys of the unskipped records — sorted
ascending by the group comparator (numeric when both keys are numbers, else
lexicographic on their string forms), each entry's value being the arithmetic
mean (sum divided by count) of that group's values; and the specification's
example evaluates as stated. -/
theorem aggregateData_average_correct (D : List JSRec) (g v : String) :
    ((aggregateData D g v ("average")).map AggEntry.group).Nodup
    ∧ (∀ k : JSVal, k ∈ (aggregateData D g v ("average")).map AggEntry.group ↔
        ∃ r ∈ D, aggRowSkipped r g v = false ∧ keyOfRow r g = k)
    ∧ (aggregateData D g v ("average")).Chain' (fun a b => aggCmp a b ≤ 0)
    ∧ (∀ e ∈ aggregateData D g v ("average"),
        e.value = ndiv ((groupValsOf D g v e.group).foldl nadd (.fin 0))
          (.fin ((groupValsOf D g v e.group).length : ℚ)))
    ∧ aggregateData
        [[(("v"), JSVal.num (.fin 1)), (("g"), JSVal.str ("a"))],
         [(("v"), JSVal.num (.fin 3)), (("g"), JSVal.str ("a"))],
         [(("v"), JSVal.num (.fin 5)), (("g"), JSVal.str ("b"))]] ("g") ("v") ("average") =
      [AggEntry.mk (JSVal.str ("a")) (.fin 2), AggEntry.mk (JSVal.str ("b")) (.fin 5)] := by
  cases D with
  | nil =>
    refine ⟨by simp [aggregateData], ?_, by simp [aggregateData], by simp [aggregateData],
      by with_unfolding_all decide⟩
    intro k
    simp [aggregateData]
  | cons r0 D' =>
    have hagg : aggregateData (r0 :: D') g v ("average") =
        jsSortBy aggCmp (((buildGroups (r0 :: D') g v).filter
          (fun p => p.2.length ≠ 0)).map
          (fun p => AggEntry.mk p.1 (aggValue ("average") p.2))) := rfl
    have hkeysnd : ((buildGroups (r0 :: D') g v).map Prod.fst).Nodup :=
      foldl_groupStep_nodup g v (r0 :: D') [] (by simp)
    have hne : ∀ p ∈ buildGroups (r0 :: D') g v, p.2 ≠ [] :=
      foldl_groupStep_vals_ne_nil g v (r0 :: D') [] (by simp)
    have hfilter : (buildGroups (r0 :: D') g v).filter (fun p => p.2.length ≠ 0) =
        buildGroups (r0 :: D') g v := by
      rw [List.filter_eq_self]
      intro p hp
      simpa [List.length_eq_zero] using hne p hp
    have hfind : ∀ k, findVals (buildGroups (r0 :: D') g v) k =
        groupValsOf (r0 :: D') g v k := by
      intro k
      have h := foldl_groupStep_findVals g v (r0 :: D') [] k
      have h0 : findVals [] k = [] := rfl
      rw [h0] at h
      simpa [buildGroups] using h
    have hperm : List.Perm (aggregateData (r0 :: D') g v ("average"))
        ((buildGroups (r0 :: D') g v).map
          (fun p => AggEntry.mk p.1 (aggValue ("average") p.2))) := by
      rw [hagg, hfilter]
      exact jsSortBy_perm _ _
    have hmapgr : ((buildGroups (r0 :: D') g v).map
        (fun p => AggEntry.mk p.1 (aggValue ("average") p.2))).map AggEntry.group =
        (buildGroups (r0 :: D') g v).map Prod.fst := by
      rw [List.map_map]
      rfl
    refine ⟨?_, ?_, ?_, ?_, by with_unfolding_all decide⟩
    · have h := hperm.map AggEntry.group
      rw [hmapgr] at h
      exact h.nodup_iff.mpr hkeysnd
    · intro k
      have hmem := (hperm.map AggEntry.group).mem_iff (a := k)
      rw [hmapgr] at hmem
      rw [hmem]
      have h := foldl_groupStep_keys_mem g v (r0 :: D') [] k
      simpa [buildGroups] using h
    · rw [hagg]
      exact chain'_jsSortBy aggCmp aggCmp_anti _
    · intro e he
      have he' := hperm.mem_iff.mp he
      rw [List.mem_map] at he'
      obtain ⟨p, hp, rfl⟩ := he'
      have hv2 : p.2 = groupValsOf (r0 :: D') g v p.1 := by
        rw [← hfind p.1]
        exact (findVals_of_mem_nodup _ hkeysnd p.1 p.2 (by rw [Prod.mk.eta]; exact hp)).symm
      show aggValue ("average") p.2 = _
      have hgr : (AggEntry.mk p.1 (aggValue ("average") p.2)).group = p.1 := rfl
      rw [hgr, ← hv2]
      rfl

theorem nStrictEqB_eq (a b : NumV) (h : nStrictEqB a b = true) : a = b := by
  cases a <;> cases b <;> simp_all [nStrictEqB]

theorem jsStrictEqO_eq (x y : Option JSVal) (h : jsStrictEqO x y = true) : x = y := by
  cases x with
  | none =>
    cases y with
    | none => rfl
    | some b => cases b <;> simp_all [jsStrictEqO]
  | some a =>
    cases y with
    | none => cases a <;> simp_all [jsStrictEqO]
    | some b =>
      cases a <;> cases b <;> simp only [jsStrictEqO] at h <;>
        first
          | (rw [nStrictEqB_eq _ _ h])
          | simp_all

theorem mem_jsSetList (a : Option JSVal) : ∀ (l : List (Option JSVal)),
    a ∈ jsSetList l ↔ a ∈ l := by
  intro l
  induction l using jsSetList.induct with
  | case1 => simp [jsSetList]
  | case2 x xs ih =>
    rw [jsSetList]
    by_cases hax : a = x
    · subst hax
      simp
    · simp only [List.mem_cons, hax, false_or]
      rw [ih]
      simp [List.mem_filter, hax]

theorem jsSetList_nodup : ∀ (l : List (Option JSVal)), (jsSetList l).Nodup := by
  intro l
  induction l using jsSetList.induct with
  | case1 => simp [jsSetList]
  | case2 x xs ih =>
    rw [jsSetList, List.nodup_cons]
    refine ⟨?_, ih⟩
    rw [mem_jsSetList]
    simp [List.mem_filter]

theorem jsIndexOf_toNat_lt (xs : List (Option JSVal)) (x : Option JSVal) :
    0 ≤ jsIndexOf xs x → (jsIndexOf xs x).toNat < xs.length := by
  induction xs with
  | nil => intro h; simp [jsIndexOf] at h
  | cons a t ih =>
    simp only [jsIndexOf, List.length_cons]
    split
    · intro _
      simp
    · split
      · intro h
        omega
      · intro _
        rename_i hpos
        have := ih (by omega)
        omega

theorem jsIndexOf_eq_coe_iff : ∀ (xs : List (Option JSVal)), xs.Nodup →
    ∀ (x : Option JSVal) (i : Nat) (hi : i < xs.length),
      jsIndexOf xs x = (i : Int) ↔ jsStrictEqO x xs[i] = true := by
  intro xs
  induction xs with
  | nil =>
    intro _ x i hi
    simp at hi
  | cons a t ih =>
    intro hnd x i hi
    rw [List.nodup_cons] at hnd
    by_cases ha : jsStrictEqO a x = true
    · have hax := jsStrictEqO_eq _ _ ha
      subst hax
      have h0 : jsIndexOf (a :: t) a = 0 := by simp [jsIndexOf, ha]
      rw [h0]
      cases i with
      | zero =>
        rw [List.getElem_cons_zero]
        exact iff_of_true rfl ha
      | succ i' =>
        have hlt : i' < t.length := by simpa using hi
        rw [List.getElem_cons_succ]
        constructor
        · intro h
          omega
        · intro h
          exfalso
          have heq := jsStrictEqO_eq _ _ h
          exact hnd.1 (heq ▸ List.getElem_mem hlt)
    · have hidx : jsIndexOf (a :: t) x =
          if jsIndexOf t x < 0 then -1 else jsIndexOf t x + 1 := by
        simp [jsIndexOf, ha]
      cases i with
      | zero =>
        rw [hidx, List.getElem_cons_zero]
        constructor
        · intro h
          split at h <;> omega
        · intro h
          exfalso
          have hxa := jsStrictEqO_eq _ _ h
          subst hxa
          exact ha h
      | succ i' =>
        have hlt : i' < t.length := by simpa using hi
        rw [hidx, List.getElem_cons_succ, ← ih hnd.2 x i' hlt]
        constructor
        · intro h
          split at h <;> omega
        · intro h
          rw [if_neg (by omega), h]
          omega

theorem cellGet_matrixUpdate_self (m : List (List JSVal)) (i j : Nat) (v : Option JSVal)
    (hi : i < m.length) (hj : j < ((m[i]?).getD []).length) :
    cellGet (matrixUpdate m i j v) i j = jsAdd (cellGet m i j) v := by
  simp only [matrixUpdate, cellGet, List.get?_eq_getElem?]
  rw [List.getElem?_set_self (by simpa using hi)]
  simp only [Option.getD_some]
  rw [List.getElem?_set_self hj]
  simp

theorem cellGet_matrixUpdate_other (m : List (List JSVal)) (a b i j : Nat) (v : Option JSVal)
    (h : a ≠ i ∨ b ≠ j) :
    cellGet (matrixUpdate m a b v) i j = cellGet m i j := by
  simp only [matrixUpdate, cellGet, List.get?_eq_getElem?]
  rcases h with h | h
  · rw [List.getElem?_set_ne h]
  · by_cases hai : a = i
    · subst hai
      rw [List.getElem?_set]
      rw [if_pos rfl]
      by_cases hlt : a < m.length
      · rw [if_pos hlt, Option.getD_some, List.getElem?_eq_getElem hlt, Option.getD_some,
          List.getElem?_set_ne h]
      · have hnone : m[a]? = none := List.getElem?_eq_none (by omega)
        rw [if_neg hlt, hnone]
    · rw [List.getElem?_set_ne hai]

theorem heatStep_length (RL CL : List (Option JSVal)) (rF cF vF : String)
    (m : List (List JSVal)) (d : JSRec) :
    (heatStep RL CL rF cF vF m d).length = m.length := by
  simp only [heatStep]
  split
  · simp [matrixUpdate]
  · rfl

theorem heatStep_rows (RL CL : List (Option JSVal)) (rF cF vF : String)
    (m : List (List JSVal)) (d : JSRec) (hm : m.length = RL.length)
    (hrow : ∀ row ∈ m, row.length = CL.length) :
    ∀ row ∈ heatStep RL CL rF cF vF m d, row.length = CL.length := by
  simp only [heatStep]
  split
  · rename_i hg
    intro row hr
    simp only [matrixUpdate, List.get?_eq_getElem?] at hr
    rcases List.mem_or_eq_of_mem_set hr with hmem | rfl
    · exact hrow _ hmem
    · have ha : (jsIndexOf RL (lookupF d rF)).toNat < m.length := by
        rw [hm]
        exact jsIndexOf_toNat_lt _ _ hg.1
      rw [List.length_set]
      rw [List.getElem?_eq_getElem ha, Option.getD_some]
      exact hrow _ (List.getElem_mem ha)
  · exact hrow

theorem heatStep_cell (RL CL : List (Option JSVal)) (rF cF vF : String)
    (m : List (List JSVal)) (d : JSRec) (i j : Nat)
    (hm : m.length = RL.length) (hrow : ∀ row ∈ m, row.length = CL.length)
    (hi : i < RL.length) (hj : j < CL.length) :
    cellGet (heatStep RL CL rF cF vF m d) i j =
      if jsIndexOf RL (lookupF d rF) = (i : Int) ∧ jsIndexOf CL (lookupF d cF) = (j : Int)
      then jsAdd (cellGet m i j) (lookupF d vF) else cellGet m i j := by
  simp only [heatStep]
  by_cases hg : 0 ≤ jsIndexOf RL (lookupF d rF) ∧ 0 ≤ jsIndexOf CL (lookupF d cF)
  · rw [if_pos hg]
    by_cases hc : jsIndexOf RL (lookupF d rF) = (i : Int)
        ∧ jsIndexOf CL (lookupF d cF) = (j : Int)
    · rw [if_pos hc]
      obtain ⟨h1, h2⟩ := hc
      rw [h1, h2, Int.toNat_ofNat, Int.toNat_ofNat]
      apply cellGet_matrixUpdate_self
      · rw [hm]
        exact hi
      · have him : i < m.length := by rw [hm]; exact hi
        rw [List.getElem?_eq_getElem him, Option.getD_some]
        rw [hrow _ (List.getElem_mem him)]
        exact hj
    · rw [if_neg hc]
      apply cellGet_matrixUpdate_other
      by_cases hri : (jsIndexOf RL (lookupF d rF)).toNat = i
      · right
        intro hcj
        apply hc
        constructor <;> omega
      · left
        exact hri
  · rw [if_neg hg, if_neg (by intro hc; exact hg (by constructor <;> omega))]

theorem foldl_heatStep_spec (RL CL : List (Option JSVal)) (rF cF vF : String)
    (D : List JSRec) :
    ∀ (m : List (List JSVal)), m.length = RL.length →
      (∀ row ∈ m, row.length = CL.length) →
      (D.foldl (heatStep RL CL rF cF vF) m).length = RL.length
      ∧ (∀ row ∈ D.foldl (heatStep RL CL rF cF vF) m, row.length = CL.length)
      ∧ ∀ (i j : Nat), i < RL.length → j < CL.length →
          cellGet (D.foldl (heatStep RL CL rF cF vF) m) i j =
            D.foldl (fun acc r =>
              if jsIndexOf RL (lookupF r rF) = (i : Int)
                  ∧ jsIndexOf CL (lookupF r cF) = (j : Int)
              then jsAdd acc (lookupF r vF) else acc) (cellGet m i j) := by
  induction D with
  | nil => exact fun m hm hrow => ⟨hm, hrow, fun i j _ _ => rfl⟩
  | cons d D ih =>
    intro m hm hrow
    have hm1 : (heatStep RL CL rF cF vF m d).length = RL.length := by
      rw [heatStep_length]
      exact hm
    have hrow1 := heatStep_rows RL CL rF cF vF m d hm hrow
    obtain ⟨hl, hr, hc⟩ := ih _ hm1 hrow1
    refine ⟨hl, hr, ?_⟩
    intro i j hi hj
    rw [List.foldl_cons, List.foldl_cons, hc i j hi hj,
      heatStep_cell RL CL rF cF vF m d i j hm hrow hi hj]

theorem cellGet_init (RL CL : List (Option JSVal)) (i j : Nat)
    (hi : i < RL.length) (_hj : j < CL.length) :
    cellGet (RL.map (fun _ => CL.map (fun _ => (JSVal.num (.fin 0))))) i j =
      .num (.fin 0) := by
  simp only [cellGet, List.get?_eq_getElem?, List.getElem?_map,
    List.getElem?_eq_getElem hi]
  simp

theorem foldl_cell_to_sum (rF cF vF : String) (rl cl : Option JSVal) :
    ∀ (D : List JSRec), (∀ r ∈ D, ∃ q : ℚ, lookupF r vF = some (.num (.fin q))) →
      ∀ s : ℚ, D.foldl (fun acc r =>
        if jsStrictEqO (lookupF r rF) rl = true ∧ jsStrictEqO (lookupF r cF) cl = true
        then jsAdd acc (lookupF r vF) else acc) (.num (.fin s)) =
      .num (.fin (s + cellSum D rF cF vF rl cl)) := by
  intro D
  induction D with
  | nil =>
    intro _ s
    simp [cellSum]
  | cons r D ih =>
    intro hv s
    obtain ⟨q, hq⟩ := hv r (List.mem_cons_self _ _)
    have hv' : ∀ x ∈ D, ∃ p : ℚ, lookupF x vF = some (.num (.fin p)) :=
      fun x hx => hv x (List.mem_cons_of_mem _ hx)
    by_cases hc : jsStrictEqO (lookupF r rF) rl = true ∧ jsStrictEqO (lookupF r cF) cl = true
    · rw [List.foldl_cons, if_pos hc, hq]
      have hadd : jsAdd (.num (.fin s)) (some (.num (.fin q))) = .num (.fin (s + q)) := rfl
      rw [hadd, ih hv' (s + q)]
      have hfil : cellSum (r :: D) rF cF vF rl cl = q + cellSum D rF cF vF rl cl := by
        simp [cellSum, List.filter_cons, hc.1, hc.2, finPartOf, hq]
      rw [hfil]
      ring_nf
    · rw [List.foldl_cons, if_neg hc, ih hv' s]
      have hfil : cellSum (r :: D) rF cF vF rl cl = cellSum D rF cF vF rl cl := by
        have hb : (jsStrictEqO (lookupF r rF) rl && jsStrictEqO (lookupF r cF) cl) = false := by
          rcases Decidable.em (jsStrictEqO (lookupF r rF) rl = true) with h1 | h1
          · rcases Decidable.em (jsStrictEqO (lookupF r cF) cl = true) with h2 | h2
            · exact absurd ⟨h1, h2⟩ hc
            · simp [h1, h2]
          · simp [h1]
        simp [cellSum, List.filter_cons, hb]
      rw [hfil]

/-- C8: for every dataset and choice of row, column and value features (the
value feature holding a finite number in every record), `buildHeatmapData`
returns sorted row and column label sequences and a matrix of matching
dimensions whose (row, column) cell equals the sum of the value feature over
the records whose row and column values strictly equal those labels — cells
with no matching record keep their zero initialisation, since the sum over an
empty match set is `0` — and the specification's example evaluates as stated. -/
theorem buildHeatmapData_correct (D : List JSRec) (rF cF vF : String)
    (hv : ∀ r ∈ D, ∃ q : ℚ, lookupF r vF = some (.num (.fin q))) :
    (buildHeatmapData D rF cF vF).rowLabels.Chain' (fun a b => sortFunction a b ≤ 0)
    ∧ (buildHeatmapData D rF cF vF).colLabels.Chain' (fun a b => sortFunction a b ≤ 0)
    ∧ (buildHeatmapData D rF cF vF).values.length =
        (buildHeatmapData D rF cF vF).rowLabels.length
    ∧ (∀ row ∈ (buildHeatmapData D rF cF vF).values,
        row.length = (buildHeatmapData D rF cF vF).colLabels.length)
    ∧ (∀ (i j : Nat) (rl cl : Option JSVal),
        (buildHeatmapData D rF cF vF).rowLabels[i]? = some rl →
        (buildHeatmapData D rF cF vF).colLabels[j]? = some cl →
        cellGet (buildHeatmapData D rF cF vF).values i j =
          .num (.fin (cellSum D rF cF vF rl cl)))
    ∧ buildHeatmapData
        [[(("r"), JSVal.str ("A")), (("c"), JSVal.str ("1")), (("v"), JSVal.num (.fin 5))],
         [(("r"), JSVal.str ("A")), (("c"), JSVal.str ("1")), (("v"), JSVal.num (.fin 3))],
         [(("r"), JSVal.str ("B")), (("c"), JSVal.str ("2")), (("v"), JSVal.num (.fin 7))]]
        ("r") ("c") ("v") =
      HeatmapData.mk
        [[JSVal.num (.fin 8), JSVal.num (.fin 0)], [JSVal.num (.fin 0), JSVal.num (.fin 7)]]
        [some (JSVal.str ("A")), some (JSVal.str ("B"))]
        [some (JSVal.str ("1")), some (JSVal.str ("2"))] := by
  have hrl : (buildHeatmapData D rF cF vF).rowLabels = heatLabels D rF := rfl
  have hcl : (buildHeatmapData D rF cF vF).colLabels = heatLabels D cF := rfl
  have hval : (buildHeatmapData D rF cF vF).values =
      D.foldl (heatStep (heatLabels D rF) (heatLabels D cF) rF cF vF)
        ((heatLabels D rF).map (fun _ => (heatLabels D cF).map
          (fun _ => (JSVal.num (.fin 0))))) := rfl
  have hinitlen : ((heatLabels D rF).map (fun _ => (heatLabels D cF).map
      (fun _ => (JSVal.num (.fin 0))))).length = (heatLabels D rF).length := by
    simp
  have hinitrow : ∀ row ∈ (heatLabels D rF).map (fun _ => (heatLabels D cF).map
      (fun _ => (JSVal.num (.fin 0)))), row.length = (heatLabels D cF).length := by
    intro row hrow
    rw [List.mem_map] at hrow
    obtain ⟨_, _, rfl⟩ := hrow
    simp
  obtain ⟨hlen, hrows, hcell⟩ := foldl_heatStep_spec (heatLabels D rF) (heatLabels D cF)
    rF cF vF D _ hinitlen hinitrow
  have hndr : (heatLabels D rF).Nodup :=
    ((jsSortBy_perm sortFunction _).nodup_iff).mpr (jsSetList_nodup _)
  have hndc : (heatLabels D cF).Nodup :=
    ((jsSortBy_perm sortFunction _).nodup_iff).mpr (jsSetList_nodup _)
  refine ⟨?_, ?_, ?_, ?_, ?_, by with_unfolding_all decide⟩
  · rw [hrl]
    exact chain'_jsSortBy sortFunction sortFunction_anti _
  · rw [hcl]
    exact chain'_jsSortBy sortFunction sortFunction_anti _
  · rw [hval, hrl]
    exact hlen
  · rw [hval, hcl]
    exact hrows
  · intro i j rl cl hirl hjcl
    rw [hrl] at hirl
    rw [hcl] at hjcl
    obtain ⟨hi, hirl'⟩ := List.getElem?_eq_some_iff.mp hirl
    obtain ⟨hj, hjcl'⟩ := List.getElem?_eq_some_iff.mp hjcl
    rw [hval, hcell i j hi hj]
    have hfx : D.foldl (fun acc r =>
        if jsIndexOf (heatLabels D rF) (lookupF r rF) = (i : Int)
            ∧ jsIndexOf (heatLabels D cF) (lookupF r cF) = (j : Int)
        then jsAdd acc (lookupF r vF) else acc)
        (cellGet ((heatLabels D rF).map (fun _ => (heatLabels D cF).map
          (fun _ => (JSVal.num (.fin 0))))) i j) =
        D.foldl (fun acc r =>
        if jsStrictEqO (lookupF r rF) rl = true ∧ jsStrictEqO (lookupF r cF) cl = true
        then jsAdd acc (lookupF r vF) else acc)
        (cellGet ((heatLabels D rF).map (fun _ => (heatLabels D cF).map
          (fun _ => (JSVal.num (.fin 0))))) i j) := by
      apply List.foldl_ext
      intro acc r _
      apply if_congr ?_ rfl rfl
      apply and_congr
      · rw [jsIndexOf_eq_coe_iff _ hndr (lookupF r rF) i hi, hirl']
      · rw [jsIndexOf_eq_coe_iff _ hndc (lookupF r cF) j hj, hjcl']
    rw [hfx, cellGet_init _ _ i j hi hj, foldl_cell_to_sum rF cF vF rl cl D hv 0, zero_add]

/-- Witness for `buildHeatmapData_correct` at the specification's example:
records `(A,1,v=5)`, `(A,1,v=3)`, `(B,2,v=7)` give matrix `[[8,0],[0,7]]` with
row labels `A`, `B` and column labels `1`, `2`. -/
theorem buildHeatmapData_correct_witness :
    (∀ r ∈ [[(("r"), JSVal.str ("A")), (("c"), JSVal.str ("1")), (("v"), JSVal.num (.fin 5))],
        [(("r"), JSVal.str ("A")), (("c"), JSVal.str ("1")), (("v"), JSVal.num (.fin 3))],
        [(("r"), JSVal.str ("B")), (("c"), JSVal.str ("2")), (("v"), JSVal.num (.fin 7))]],
      ∃ q : ℚ, lookupF r ("v") = some (.num (.fin q)))
    ∧ buildHeatmapData
        [[(("r"), JSVal.str ("A")), (("c"), JSVal.str ("1")), (("v"), JSVal.num (.fin 5))],
         [(("r"), JSVal.str ("A")), (("c"), JSVal.str ("1")), (("v"), JSVal.num (.fin 3))],
         [(("r"), JSVal.str ("B")), (("c"), JSVal.str ("2")), (("v"), JSVal.num (.fin 7))]]
        ("r") ("c") ("v") =
      HeatmapData.mk
        [[JSVal.num (.fin 8), JSVal.num (.fin 0)], [JSVal.num (.fin 0), JSVal.num (.fin 7)]]
        [some (JSVal.str ("A")), some (JSVal.str ("B"))]
        [some (JSVal.str ("1")), some (JSVal.str ("2"))] :=
  ⟨by
    intro r hr
    fin_cases hr <;> exact ⟨_, rfl⟩,
   (buildHeatmapData_correct
      [[(("r"), JSVal.str ("A")), (("c"), JSVal.str ("1")), (("v"), JSVal.num (.fin 5))],
       [(("r"), JSVal.str ("A")), (("c"), JSVal.str ("1")), (("v"), JSVal.num (.fin 3))],
       [(("r"), JSVal.str ("B")), (("c"), JSVal.str ("2")), (("v"), JSVal.num (.fin 7))]]
      ("r") ("c") ("v")
      (by intro r hr; fin_cases hr <;> exact ⟨_, rfl⟩)).2.2.2.2.2⟩

/-- Witness for `linechart_sorted_scatterplot_in_dataset_order`: the example
instance of its conclusion. -/
theorem linechart_sorted_scatterplot_witness :
    linechartValues
        [[(("x"), JSVal.num (.fin 1)), (("y"), JSVal.num (.fin 10))],
         [(("x"), JSVal.num (.fin 3)), (("y"), JSVal.num (.fin 5))],
         [(("x"), JSVal.num (.fin 2)), (("y"), JSVal.num (.fin 8))]] ("x") ("y") =
      [XYPoint.mk (some (JSVal.num (.fin 1))) (some (JSVal.num (.fin 10))),
       XYPoint.mk (some (JSVal.num (.fin 2))) (some (JSVal.num (.fin 8))),
       XYPoint.mk (some (JSVal.num (.fin 3))) (some (JSVal.num (.fin 5)))] :=
  (linechart_sorted_scatterplot_in_dataset_order [] ("x") ("y")).2.2.2

/-- Witness for `aggregateData_skip_semantics` at a concrete dataset with one
skipped (null numeric value) and one kept record. -/
theorem aggregateData_skip_semantics_witness :
    aggregateData
        [[(("g"), JSVal.str ("a")), (("v"), JSVal.null)],
         [(("g"), JSVal.str ("b")), (("v"), JSVal.num (.fin 4))]] ("g") ("v") ("sum") =
      aggregateData
        ([[(("g"), JSVal.str ("a")), (("v"), JSVal.null)],
          [(("g"), JSVal.str ("b")), (("v"), JSVal.num (.fin 4))]].filter
          (fun r => !aggRowSkipped r ("g") ("v"))) ("g") ("v") ("sum") :=
  (aggregateData_skip_semantics
    [[(("g"), JSVal.str ("a")), (("v"), JSVal.null)],
     [(("g"), JSVal.str ("b")), (("v"), JSVal.num (.fin 4))]] ("g") ("v") ("sum")).2

/-- Witness for `applyFiltering_idempotent_and_empty` at a concrete dataset
and filter list. -/
theorem applyFiltering_idempotent_and_empty_witness :
    applyFiltering
        (applyFiltering [[(("x"), JSVal.num (.fin 1))], [(("x"), JSVal.num (.fin 7))]]
          [Filter.mk ("x") ("<") (JSVal.num (.fin 5))])
        [Filter.mk ("x") ("<") (JSVal.num (.fin 5))] =
      applyFiltering [[(("x"), JSVal.num (.fin 1))], [(("x"), JSVal.num (.fin 7))]]
        [Filter.mk ("x") ("<") (JSVal.num (.fin 5))]
    ∧ applyFiltering [[(("x"), JSVal.num (.fin 1))], [(("x"), JSVal.num (.fin 7))]] [] =
      [[(("x"), JSVal.num (.fin 1))], [(("x"), JSVal.num (.fin 7))]] :=
  applyFiltering_idempotent_and_empty
    [[(("x"), JSVal.num (.fin 1))], [(("x"), JSVal.num (.fin 7))]]
    [Filter.mk ("x") ("<") (JSVal.num (.fin 5))]

/-- Witness for `aggregateData_average_correct`: the example instance of its
final conjunct. -/
theorem aggregateData_average_correct_witness :
    aggregateData
        [[(("v"), JSVal.num (.fin 1)), (("g"), JSVal.str ("a"))],
         [(("v"), JSVal.num (.fin 3)), (("g"), JSVal.str ("a"))],
         [(("v"), JSVal.num (.fin 5)), (("g"), JSVal.str ("b"))]] ("g") ("v") ("average") =
      [AggEntry.mk (JSVal.str ("a")) (.fin 2), AggEntry.mk (JSVal.str ("b")) (.fin 5)] :=
  (aggregateData_average_correct [] ("g") ("v")).2.2.2.2

end Dataviz
